import Mathlib

/-!
# NOVA Editor: syntax highlighter and line-number gutter

A shallow embedding of `CppHighlighter` (its rule table and `highlightBlock`),
of the gutter code of `CodeEditor` (`lineNumberAreaWidth`,
`lineNumberAreaPaintEvent`) and of the theme state (`createEditor`,
`applyTheme`) from `src/mainwindow.cpp`.  The Highlight Controller of the
specification has no counterpart in the repository, where Qt's
`QSyntaxHighlighter` calls `highlightBlock`; it is modelled from the
specification, around the `highlightBlock` of the source.

Conventions of the embedding.

* A `QString` is a list of characters; one list element stands for one
  UTF-16 code unit, so offsets are list indices.
* A `QRegularExpression` is a list of pattern items, matched by a
  backtracking matcher that tries alternatives in the order PCRE2 does
  (a greedy repetition first takes the longest run and then gives
  characters back).  `\w` and `\b` are ASCII, `.` and `[^\n]` exclude only
  the line feed.
* `setFormat` calls are recorded as a trace of styled spans; `formatsOf`
  replays a trace on the per-character format buffer of the block, which is
  what `QSyntaxHighlighter::setFormat` does.
* The `int` sentinel `-1` of `indexOf` and `capturedStart` is `none`.
* Loops whose termination is not structural carry a fuel argument and
  return `none` when it is used up.
-/

namespace Nova

/-! ## Text and formats -/

/-- The text of one block: a sequence of UTF-16 code units. -/
abbrev QString := List Char

/-- The two properties of a `QTextCharFormat` the highlighter sets: the
foreground colour (as `0xRRGGBB`, `none` while unset) and the bold weight. -/
structure QTextCharFormat where
  foreground : Option Nat
  bold : Bool
deriving DecidableEq, Repr

/-- A default-constructed format: the style of unhighlighted ("plain") text. -/
def plainFormat : QTextCharFormat := ⟨none, false⟩

def keywordFormat : QTextCharFormat := ⟨some 0xff79c6, true⟩

def classFormat : QTextCharFormat := ⟨some 0x8be9fd, true⟩

def singleLineCommentFormat : QTextCharFormat := ⟨some 0x6272a4, false⟩

def multiLineCommentFormat : QTextCharFormat := ⟨some 0x6272a4, false⟩

def quotationFormat : QTextCharFormat := ⟨some 0xf1fa8c, false⟩

def functionFormat : QTextCharFormat := ⟨some 0x50fa7b, false⟩

def numberFormat : QTextCharFormat := ⟨some 0xbd93f9, false⟩

/-! ## Regular expressions -/

/-- The double-quote character. -/
def dquote : Char := Char.ofNat 34

/-- The line-feed character. -/
def newline : Char := Char.ofNat 10

/-- The class `\w` (ASCII letters, digits, underscore); also `[A-Za-z0-9_]`. -/
def isWordChar (c : Char) : Bool := c.isAlpha || c.isDigit || c == '_'

/-- The classes `.` and `[^\n]`. -/
def notNewline (c : Char) : Bool := c != newline

/-- One item of a pattern. -/
inductive Item where
  /-- a literal character -/
  | lit (c : Char)
  /-- greedy repetition `[..]*` of a character class -/
  | star (cls : Char → Bool)
  /-- greedy repetition `[..]+` of a character class -/
  | plus (cls : Char → Bool)
  /-- the word boundary `\b` -/
  | wordB
  /-- the look-ahead `(?=c)` for a literal character -/
  | ahead (c : Char)

/-- A pattern is a concatenation of items. -/
abbrev QRegularExpression := List Item

/-- Whether the code unit at offset `i` exists and is a word character. -/
def wordAt (text : QString) (i : Nat) : Bool :=
  match text[i]? with
  | some c => isWordChar c
  | none => false

/-- The assertion `\b` at offset `i`: exactly one of the characters before and
after the offset is a word character (no character counts as a non-word). -/
def wordBoundary (text : QString) (i : Nat) : Bool :=
  (if i = 0 then false else wordAt text (i - 1)) != wordAt text i

/-- Length of the longest run of characters of class `cls` starting at `i`. -/
def runLength (cls : Char → Bool) (text : QString) (i : Nat) : Nat :=
  ((text.drop i).takeWhile cls).length

/-- Backtracking over a greedy repetition that started at offset `i`: try the
continuation `k` after `n`, `n - 1`, ..., `lo` repetitions and keep the first
success. -/
def backtrack (k : Nat → Option Nat) (i lo : Nat) : Nat → Option Nat
  | 0 => if lo = 0 then k i else none
  | n + 1 =>
    if lo ≤ n + 1 then
      match k (i + (n + 1)) with
      | some e => some e
      | none => backtrack k i lo n
    else none

/-- Anchored match of a pattern at offset `i` of `text`: the end offset of the
first match in backtracking order, if there is one. -/
def matchAt (text : QString) : QRegularExpression → Nat → Option Nat
  | [], i => some i
  | Item.lit c :: rest, i =>
    if text[i]? = some c then matchAt text rest (i + 1) else none
  | Item.star cls :: rest, i =>
    backtrack (matchAt text rest) i 0 (runLength cls text i)
  | Item.plus cls :: rest, i =>
    backtrack (matchAt text rest) i 1 (runLength cls text i)
  | Item.wordB :: rest, i =>
    if wordBoundary text i then matchAt text rest i else none
  | Item.ahead c :: rest, i =>
    if text[i]? = some c then matchAt text rest i else none

/-- Try the offsets `i`, `i + 1`, ..., `i + n - 1` in turn. -/
def scan (re : QRegularExpression) (text : QString) : Nat → Nat → Option (Nat × Nat)
  | _, 0 => none
  | i, n + 1 =>
    match matchAt text re i with
    | some e => some (i, e)
    | none => scan re text (i + 1) n

/-- The call `re.match(text, offset)`: the leftmost match starting at or after
`offset`, as (captured start, captured end). -/
def regexMatch (re : QRegularExpression) (text : QString) (offset : Nat) : Option (Nat × Nat) :=
  if offset ≤ text.length then scan re text offset (text.length + 1 - offset) else none

/-- The call `text.indexOf(re, offset)`: start of the leftmost match, `none` for -1. -/
def indexOf (text : QString) (re : QRegularExpression) (offset : Nat) : Option Nat :=
  (regexMatch re text offset).map Prod.fst

/-- The iteration of `re.globalMatch(text)`: successive matches as (captured
start, captured length), each search starting where the previous match ended
(one past it after an empty match). -/
def globalMatchFrom (re : QRegularExpression) (text : QString) : Nat → Nat → List (Nat × Nat)
  | 0, _ => []
  | fuel + 1, offset =>
    match regexMatch re text offset with
    | none => []
    | some (s, e) => (s, e - s) :: globalMatchFrom re text fuel (if e = s then e + 1 else e)

/-- The call `re.globalMatch(text)`, drained. -/
def globalMatch (re : QRegularExpression) (text : QString) : List (Nat × Nat) :=
  globalMatchFrom re text (text.length + 1) 0

/-- An item that consumes at least one character when it matches. -/
def Item.consumes : Item → Bool
  | Item.lit _ => true
  | Item.plus _ => true
  | _ => false

/-! ## The rule table of `CppHighlighter::CppHighlighter` -/

/-- The pattern `\bWORD\b`. -/
def wordPattern (word : String) : QRegularExpression :=
  Item.wordB :: (word.toList.map Item.lit ++ [Item.wordB])

def keywordPatterns : List QRegularExpression :=
  ["char", "class", "const", "double", "enum",
   "explicit", "friend", "inline", "int", "long",
   "namespace", "operator", "private", "protected",
   "public", "short", "signals", "signed", "slots",
   "static", "struct", "template", "typedef", "typename",
   "union", "unsigned", "virtual", "void", "volatile",
   "bool", "return", "if", "else", "for", "while",
   "do", "switch", "case", "break", "continue",
   "goto", "default", "try", "catch", "throw",
   "new", "delete", "this", "true", "false", "nullptr"].map wordPattern

structure HighlightingRule where
  pattern : QRegularExpression
  format : QTextCharFormat

/-- The pattern `\bQ[A-Za-z]+\b`. -/
def classRule : HighlightingRule :=
  ⟨[Item.wordB, Item.lit 'Q', Item.plus Char.isAlpha, Item.wordB], classFormat⟩

/-- The pattern `//[^\n]*`. -/
def singleLineCommentRule : HighlightingRule :=
  ⟨[Item.lit '/', Item.lit '/', Item.star notNewline], singleLineCommentFormat⟩

/-- The pattern `".*"`. -/
def quotationRule : HighlightingRule :=
  ⟨[Item.lit dquote, Item.star notNewline, Item.lit dquote], quotationFormat⟩

/-- The pattern `\b[A-Za-z0-9_]+(?=\()`. -/
def functionRule : HighlightingRule :=
  ⟨[Item.wordB, Item.plus isWordChar, Item.ahead '('], functionFormat⟩

/-- The pattern `\b[0-9]+\b`. -/
def numberRule : HighlightingRule :=
  ⟨[Item.wordB, Item.plus Char.isDigit, Item.wordB], numberFormat⟩

/-- The rules in the order the constructor appends them. -/
def highlightingRules : List HighlightingRule :=
  keywordPatterns.map (fun p => ⟨p, keywordFormat⟩) ++
    [classRule, singleLineCommentRule, quotationRule, functionRule, numberRule]

/-- The pattern `/\*`. -/
def commentStartExpression : QRegularExpression := [Item.lit '/', Item.lit '*']

/-- The pattern `\*/`. -/
def commentEndExpression : QRegularExpression := [Item.lit '*', Item.lit '/']

/-! ## `CppHighlighter::highlightBlock` -/

/-- One recorded call `setFormat(start, length, format)`. -/
structure StyledSpan where
  start : Nat
  length : Nat
  format : QTextCharFormat
deriving DecidableEq, Repr

/-- The body of `QSyntaxHighlighter::setFormat` on the format buffer of the
block, whose entry for offset `i` is the head of the list when the counter is
`i`: every offset in `[start, start + count)` gets `fmt`. -/
def setFormatFrom (start count : Nat) (fmt : QTextCharFormat) :
    Nat → List QTextCharFormat → List QTextCharFormat
  | _, [] => []
  | i, b :: bs =>
    (if start ≤ i ∧ i < start + count then fmt else b) ::
      setFormatFrom start count fmt (i + 1) bs

def setFormat (buf : List QTextCharFormat) (start count : Nat) (fmt : QTextCharFormat) :
    List QTextCharFormat :=
  setFormatFrom start count fmt 0 buf

/-- Replay a trace of `setFormat` calls, in order, on a format buffer. -/
def applySpans (buf : List QTextCharFormat) (spans : List StyledSpan) : List QTextCharFormat :=
  spans.foldl (fun b sp => setFormat b sp.start sp.length sp.format) buf

/-- The per-character formats of a block after the calls of `spans`: the
buffer has one entry per code unit and starts out plain. -/
def formatsOf (text : QString) (spans : List StyledSpan) : List QTextCharFormat :=
  applySpans (List.replicate text.length plainFormat) spans

/-- The inner loop of the rule pass: one `setFormat` per match of the rule. -/
def ruleSpans (text : QString) (rule : HighlightingRule) : List StyledSpan :=
  (globalMatch rule.pattern text).map (fun m => ⟨m.1, m.2, rule.format⟩)

/-- The outer loop of the rule pass (lines 198 to 204). -/
def rulePass (text : QString) : List StyledSpan :=
  (highlightingRules.map (ruleSpans text)).flatten

/-- The `while (startIndex >= 0)` loop (lines 209 to 221), entered with
`startIndex` and the current block state; it returns the `setFormat` calls it
made and the block state it leaves. -/
def commentLoop (text : QString) : Nat → Nat → Int → Option (List StyledSpan × Int)
  | 0, _, _ => none
  | fuel + 1, startIndex, state =>
    let (commentLength, state1) :=
      match regexMatch commentEndExpression text startIndex with
      | none => (text.length - startIndex, (1 : Int))
      | some (endIndex, endOfMatch) => (endIndex - startIndex + (endOfMatch - endIndex), state)
    let span : StyledSpan := ⟨startIndex, commentLength, multiLineCommentFormat⟩
    match indexOf text commentStartExpression (startIndex + commentLength) with
    | none => some ([span], state1)
    | some next =>
      match commentLoop text fuel next state1 with
      | none => none
      | some (spans, state2) => some (span :: spans, state2)

/-- Lines 205 to 221: the block state is set to 0, the start index is 0 when
the previous block state is 1 and the first `/*` otherwise, then the loop runs. -/
def commentPass (text : QString) (previousBlockState : Int) : Option (List StyledSpan × Int) :=
  let startIndex := if previousBlockState ≠ 1 then indexOf text commentStartExpression 0 else some 0
  match startIndex with
  | none => some ([], 0)
  | some s => commentLoop text (text.length + 1) s 0

/-- The function `highlightBlock(text)` run with the given previous block
state: the trace of its `setFormat` calls and the current block state set. -/
def highlightBlock (text : QString) (previousBlockState : Int) : Option (List StyledSpan × Int) :=
  match commentPass text previousBlockState with
  | none => none
  | some (spans, state) => some (rulePass text ++ spans, state)

/-- Highlighting the blocks of a document in order: `previousBlockState()` of a
block is the state its predecessor was left with. -/
def highlightBlocks : Int → List QString → Option (List (List StyledSpan × Int))
  | _, [] => some []
  | previous, text :: rest =>
    match highlightBlock text previous with
    | none => none
    | some r =>
      match highlightBlocks r.2 rest with
      | none => none
      | some rs => some (r :: rs)

/-- A whole document: `previousBlockState()` of the first block is -1. -/
def highlightDocument (lines : List QString) : Option (List (List StyledSpan × Int)) :=
  highlightBlocks (-1) lines

/-! ## The line-number gutter of `CodeEditor` -/

/-- The loop `while (max >= 10) { max /= 10; ++digits; }` of
`lineNumberAreaWidth`; the division of C++ truncates. -/
def digitsLoop : Nat → Int → Int → Option Int
  | 0, _, _ => none
  | fuel + 1, max, digits =>
    if max ≥ 10 then digitsLoop fuel (Int.tdiv max 10) (digits + 1) else some digits

/-- The value an `int` takes when the exact result of its arithmetic is `x`:
32-bit two's complement, wrapping around. -/
def wrapInt32 (x : Int) : Int := (x + 2147483648) % 4294967296 - 2147483648

/-- The function `lineNumberAreaWidth()`, of the document's `blockCount()` and
of `fontMetrics().horizontalAdvance('9')`, both `int`.  The product and the
sum of line 89 are computed in `int`; the loop divides and counts without
leaving its range. -/
def lineNumberAreaWidth (blockCount advance : Int) : Option Int :=
  let max := Max.max 1 blockCount
  match digitsLoop max.toNat max 1 with
  | none => none
  | some digits => some (wrapInt32 (15 + wrapInt32 (advance * digits)))

/-- What the paint loop reads of a text block: `isVisible()` and the height of
its bounding rectangle, cast to `int`. -/
structure QTextBlock where
  isVisible : Bool
  height : Int

/-- One call of `drawText` in the gutter: the block number it is drawn for,
the text `QString::number(blockNumber + 1)`, and whether pen and font are the
accent colour and bold weight of the caret line. -/
structure GutterLabel where
  blockNumber : Int
  number : String
  emphasized : Bool
deriving DecidableEq, Repr

/-- The height read after `block = block.next()`; 0 for the invalid block. -/
def nextHeight : List QTextBlock → Int
  | [] => 0
  | block :: _ => block.height

/-- The `while (block.isValid() && top <= event->rect().bottom())` loop of
`lineNumberAreaPaintEvent` over the blocks from the current one to the end of
the document, with the loop variables `blockNumber`, `top` and `bottom`. -/
def paintLoop (rectTop rectBottom caretBlock : Int) :
    List QTextBlock → Int → Int → Int → List GutterLabel
  | [], _, _, _ => []
  | block :: rest, blockNumber, top, bottom =>
    if top ≤ rectBottom then
      (if block.isVisible = true ∧ bottom ≥ rectTop then
        [⟨blockNumber, toString (blockNumber + 1), decide (caretBlock = blockNumber)⟩]
      else []) ++
        paintLoop rectTop rectBottom caretBlock rest (blockNumber + 1) bottom
          (bottom + nextHeight rest)
    else []

/-- The labels drawn by `lineNumberAreaPaintEvent`: `blocks` are the blocks
from `firstVisibleBlock()` on, `firstBlockNumber` its block number, `top` the
top of its geometry, `rectTop` and `rectBottom` the bounds of the event
rectangle, `caretBlock` the block number of the text cursor. -/
def lineNumberAreaPaintEvent (blocks : List QTextBlock) (firstBlockNumber top : Int)
    (rectTop rectBottom caretBlock : Int) : List GutterLabel :=
  paintLoop rectTop rectBottom caretBlock blocks firstBlockNumber top (top + nextHeight blocks)

/-- The value of the loop variable `top` when the paint loop is at the `j`-th
block of the list: the first top plus the heights of the blocks before it. -/
def blockTop (blocks : List QTextBlock) (top : Int) (j : Nat) : Int :=
  top + ((blocks.take j).map (fun b => b.height)).sum

/-- The label the paint loop draws for a block number. -/
def gutterLabel (caretBlock blockNumber : Int) : GutterLabel :=
  ⟨blockNumber, toString (blockNumber + 1), decide (caretBlock = blockNumber)⟩

/-- The `j`-th block from the first visible one is to get a label: the loop
reaches it (the top of no block up to it lies below the bottom of the event
rectangle), it is visible, and its bottom is not above the top of the
rectangle. -/
def Drawn (blocks : List QTextBlock) (top rectTop rectBottom : Int) (j : Nat) : Prop :=
  (∀ i, i ≤ j → blockTop blocks top i ≤ rectBottom) ∧
  ∃ block, blocks[j]? = some block ∧ block.isVisible = true ∧
    blockTop blocks top j + block.height ≥ rectTop

/-! ## The theme: `MainWindow::applyTheme`, `MainWindow::createEditor` -/

/-- The pen colour of a gutter label (lines 61 to 66), of the editor's
`isDarkTheme` and of whether the label is the caret's. -/
def lineNumberPen (isDarkTheme caretLine : Bool) : Nat :=
  if caretLine then (if isDarkTheme then 0x569cd6 else 0x007acc)
  else (if isDarkTheme then 0x858585 else 0x969696)

/-- The two characters `a b` stand at offsets `j` and `j + 1` of the text. -/
def litPairAt (a b : Char) (text : QString) (j : Nat) : Prop :=
  text[j]? = some a ∧ text[j + 1]? = some b

instance (a b : Char) (text : QString) (j : Nat) : Decidable (litPairAt a b text j) :=
  inferInstanceAs (Decidable (_ ∧ _))

/-- An occurrence of `/*` at offset `j`. -/
def commentStartAt (text : QString) (j : Nat) : Prop := litPairAt '/' '*' text j

/-- An occurrence of `*/` at offset `j`. -/
def commentEndAt (text : QString) (j : Nat) : Prop := litPairAt '*' '/' text j

instance (text : QString) (j : Nat) : Decidable (commentStartAt text j) :=
  inferInstanceAs (Decidable (litPairAt _ _ _ _))

instance (text : QString) (j : Nat) : Decidable (commentEndAt text j) :=
  inferInstanceAs (Decidable (litPairAt _ _ _ _))

/-- The offset `s` is the first one at or after `off` with property `P`. -/
def FirstAtOrAfter (P : Nat → Prop) (off s : Nat) : Prop :=
  off ≤ s ∧ P s ∧ ∀ j, off ≤ j → j < s → ¬ P j

/-- No offset at or after `off` has property `P`. -/
def NoneAtOrAfter (P : Nat → Prop) (off : Nat) : Prop :=
  ∀ j, off ≤ j → ¬ P j

/-- The left-to-right scan for block comments as the specification words it,
started at offset `off` outside a comment: its spans as (start, length) and
whether the line ends inside a comment. -/
inductive ScanFrom (text : QString) : Nat → List (Nat × Nat) → Bool → Prop where
  /-- no further comment start: the scan is over -/
  | done (off : Nat) :
      NoneAtOrAfter (commentStartAt text) off → ScanFrom text off [] false
  /-- a comment start with no end at or after it: the span runs to the end of
  the line and the scan stops -/
  | unterminated (off s : Nat) :
      FirstAtOrAfter (commentStartAt text) off s →
      NoneAtOrAfter (commentEndAt text) s →
      ScanFrom text off [(s, text.length - s)] true
  /-- a comment start and the first end at or after it: the span ends just
  after that end and the scan resumes there -/
  | terminated (off s e : Nat) (rest : List (Nat × Nat)) (open_ : Bool) :
      FirstAtOrAfter (commentStartAt text) off s →
      FirstAtOrAfter (commentEndAt text) s e →
      ScanFrom text (e + 2) rest open_ →
      ScanFrom text off ((s, e + 2 - s) :: rest) open_

/-- The scan continued on a line that is inside a comment at offset `s`
(offset 0 when the previous line ended inside one, a comment start otherwise). -/
def RunFrom (text : QString) (s : Nat) (spans : List (Nat × Nat)) (open_ : Bool) : Prop :=
  (NoneAtOrAfter (commentEndAt text) s ∧ spans = [(s, text.length - s)] ∧ open_ = true) ∨
  (∃ e rest, FirstAtOrAfter (commentEndAt text) s e ∧ ScanFrom text (e + 2) rest open_ ∧
    spans = (s, e + 2 - s) :: rest)

/-- A block-comment span as the `setFormat` call that styles it. -/
def commentSpan (p : Nat × Nat) : StyledSpan := ⟨p.1, p.2, multiLineCommentFormat⟩

/-- The block state that stands for the flag "ends inside a block comment". -/
def stateOfFlag (open_ : Bool) : Int := if open_ then 1 else 0

/-- A span covers an offset. -/
def StyledSpan.covers (sp : StyledSpan) (i : Nat) : Prop :=
  sp.start ≤ i ∧ i < sp.start + sp.length

instance (sp : StyledSpan) (i : Nat) : Decidable (sp.covers i) :=
  inferInstanceAs (Decidable (_ ∧ _))

/-- A double quote at offset `j`. -/
def quoteAt (text : QString) (j : Nat) : Prop := text[j]? = some dquote

instance (text : QString) (j : Nat) : Decidable (quoteAt text j) :=
  inferInstanceAs (Decidable (_ = _))

/-- The offset `l` is the last one with property `P`. -/
def LastWith (P : Nat → Prop) (l : Nat) : Prop :=
  P l ∧ ∀ j, l < j → ¬ P j

/-- The line `"a" + "b"`. -/
def twoLiterals : QString := [dquote, 'a', dquote, ' ', '+', ' ', dquote, 'b', dquote]

/-- The line `x "a\"`: its second quote is escaped by a backslash. -/
def escapedQuote : QString := ['x', ' ', dquote, 'a', Char.ofNat 92, dquote]

/-! ## The Highlight Controller of the specification -/

/-- Modelled from the spec: a Line of the data model with its ledger entries,
namely its text, the incoming flag it was last classified with, its stored
outgoing flag and its published spans.  The repository has no Highlight
Controller of its own (Qt's `QSyntaxHighlighter` calls `highlightBlock`), so
the controller is taken from sections 3 and 4.3 of the specification. -/
structure LineEntry where
  text : QString
  incoming : Bool
  outgoing : Bool
  spans : List StyledSpan
deriving DecidableEq, Repr

/-- Modelled from the spec: the state the Highlight Controller owns, the Line
sequence with its flag ledger and the DirtySet of line indices pending
recomputation; the controller is missing from the repository. -/
structure Controller where
  lines : List LineEntry
  dirty : List Nat
deriving DecidableEq, Repr

/-- Modelled from the spec: `classify(text, incomingInBlockComment)` of section
4.2, the Line Classifier, which the repository has as `highlightBlock`; the
flag is "block state is 1". -/
def classify (text : QString) (incoming : Bool) : Option (List StyledSpan × Bool) :=
  match highlightBlock text (stateOfFlag incoming) with
  | none => none
  | some (spans, state) => some (spans, decide (state = 1))

/-- Modelled from the spec: the pass of `recompute()` (missing from the
repository) over the lines from index `i` on.  A dirty line is classified with
the current incoming flag, the outgoing flag of the line before it; when the
computed outgoing flag differs from the stored one the next index is marked
dirty too; a line that is not dirty is left as it is. -/
def recomputeFrom : Nat → Bool → List Nat → List LineEntry → Option (List LineEntry)
  | _, _, _, [] => some []
  | i, incoming, dirty, line :: rest =>
    if i ∈ dirty then
      match classify line.text incoming with
      | none => none
      | some (spans, outgoing) =>
        match recomputeFrom (i + 1) outgoing
            (if outgoing ≠ line.outgoing then (i + 1) :: dirty else dirty) rest with
        | none => none
        | some done => some (⟨line.text, incoming, outgoing, spans⟩ :: done)
    else
      match recomputeFrom (i + 1) line.outgoing dirty rest with
      | none => none
      | some done => some (line :: done)

/-- Modelled from the spec: `recompute()` of section 4.3 (missing from the
repository): the dirty indices are processed in ascending order, the incoming
flag of line 0 is false, and the DirtySet is drained. -/
def recompute (c : Controller) : Option Controller :=
  match recomputeFrom 0 false c.dirty c.lines with
  | none => none
  | some lines => some ⟨lines, []⟩

/-- Modelled from the spec: `onLinesChanged(editedRange)` of section 4.3
(missing from the repository): every index of the range is marked dirty. -/
def onLinesChanged (editedRange : List Nat) (c : Controller) : Controller :=
  ⟨c.lines, editedRange ++ c.dirty⟩

/-- Modelled from the spec: the host replaces the raw text of line `i`; the
ledger entries of the line stay as they are (the buffer is missing from the
repository, Qt's `QTextDocument` holds it). -/
def setLineText (text : QString) : Nat → List LineEntry → List LineEntry
  | _, [] => []
  | 0, line :: rest => { line with text := text } :: rest
  | i + 1, line :: rest => line :: setLineText text i rest

/-- Modelled from the spec: a document handed to the controller (missing from
the repository), no line classified yet and every line pending. -/
def loadDocument (texts : List QString) : Controller :=
  ⟨texts.map (fun t => ⟨t, false, false, []⟩), List.range texts.length⟩

/-- Modelled from the spec: the lines from index `i` on that are not pending
are fresh, that is, each was classified with the stored outgoing flag of the
line before it (with `incoming` for the first of them) and its spans and
outgoing flag are those of its current text. -/
def FreshExcept (dirty : List Nat) : Nat → Bool → List LineEntry → Prop
  | _, _, [] => True
  | i, incoming, line :: rest =>
    (i ∉ dirty → line.incoming = incoming ∧
      classify line.text line.incoming = some (line.spans, line.outgoing)) ∧
    FreshExcept dirty (i + 1) line.outgoing rest

/-- Modelled from the spec: a controller state between edits and
recomputations, in which every line outside the DirtySet is fresh. -/
def WellFormed (c : Controller) : Prop := FreshExcept c.dirty 0 false c.lines

/-- The line `x = "/*";`. -/
def quotedStart : QString := ['x', ' ', '=', ' ', dquote, '/', '*', dquote, ';']

/-! ## The matcher on two-character literals -/

theorem litPairAt_bound {a b : Char} {text : QString} {j : Nat} (h : litPairAt a b text j) :
    j + 2 ≤ text.length := by
  have h2 := h.2
  rw [List.getElem?_eq_some_iff] at h2
  obtain ⟨hlt, -⟩ := h2
  omega

theorem matchAt_pair_some {a b : Char} {text : QString} {j : Nat} (h : litPairAt a b text j) :
    matchAt text [Item.lit a, Item.lit b] j = some (j + 2) := by
  simp [matchAt, h.1, h.2]

theorem matchAt_pair_none {a b : Char} {text : QString} {j : Nat} (h : ¬ litPairAt a b text j) :
    matchAt text [Item.lit a, Item.lit b] j = none := by
  unfold litPairAt at h
  simp only [matchAt]
  split
  · split
    · exact absurd ⟨‹_›, ‹_›⟩ h
    · rfl
  · rfl

theorem matchAt_pair_eq_some {a b : Char} {text : QString} {j e : Nat} :
    matchAt text [Item.lit a, Item.lit b] j = some e ↔ litPairAt a b text j ∧ e = j + 2 := by
  by_cases h : litPairAt a b text j
  · rw [matchAt_pair_some h]
    constructor
    · intro he
      exact ⟨h, (Option.some.inj he).symm⟩
    · rintro ⟨-, rfl⟩
      rfl
  · rw [matchAt_pair_none h]
    constructor
    · intro he
      cases he
    · rintro ⟨h1, -⟩
      exact absurd h1 h

theorem scan_eq_none {re : QRegularExpression} {text : QString} :
    ∀ (n i : Nat), scan re text i n = none ↔
      ∀ j, i ≤ j → j < i + n → matchAt text re j = none := by
  intro n
  induction n with
  | zero =>
    intro i
    simp only [scan, true_iff]
    intro j h1 h2
    omega
  | succ n ih =>
    intro i
    simp only [scan]
    cases hm : matchAt text re i with
    | some e =>
      simp only [false_iff, reduceCtorEq]
      intro h
      have := h i (Nat.le_refl _) (by omega)
      rw [hm] at this
      cases this
    | none =>
      simp only
      rw [ih (i + 1)]
      constructor
      · intro h j h1 h2
        by_cases hj : j = i
        · subst hj
          exact hm
        · exact h j (by omega) (by omega)
      · intro h j h1 h2
        exact h j (by omega) (by omega)

theorem scan_eq_some {re : QRegularExpression} {text : QString} {s e : Nat} :
    ∀ (n i : Nat), scan re text i n = some (s, e) ↔
      (i ≤ s ∧ s < i + n ∧ matchAt text re s = some e ∧
        ∀ j, i ≤ j → j < s → matchAt text re j = none) := by
  intro n
  induction n with
  | zero =>
    intro i
    simp only [scan, false_iff, reduceCtorEq]
    rintro ⟨h1, h2, -⟩
    omega
  | succ n ih =>
    intro i
    simp only [scan]
    cases hm : matchAt text re i with
    | some e0 =>
      simp only [Option.some.injEq, Prod.mk.injEq]
      constructor
      · rintro ⟨rfl, rfl⟩
        exact ⟨Nat.le_refl _, by omega, hm, fun j h1 h2 => by omega⟩
      · rintro ⟨h1, h2, h3, h4⟩
        by_cases hs : s = i
        · subst hs
          rw [hm] at h3
          exact ⟨rfl, Option.some.inj h3⟩
        · have := h4 i (Nat.le_refl _) (by omega)
          rw [hm] at this
          cases this
    | none =>
      simp only
      rw [ih (i + 1)]
      constructor
      · rintro ⟨h1, h2, h3, h4⟩
        refine ⟨by omega, by omega, h3, ?_⟩
        intro j hj1 hj2
        by_cases hj : j = i
        · subst hj
          exact hm
        · exact h4 j (by omega) hj2
      · rintro ⟨h1, h2, h3, h4⟩
        have hs : s ≠ i := by
          rintro rfl
          rw [hm] at h3
          cases h3
        exact ⟨by omega, by omega, h3, fun j hj1 hj2 => h4 j (by omega) hj2⟩

theorem regexMatch_pair_none {a b : Char} {text : QString} {off : Nat} (h : off ≤ text.length) :
    regexMatch [Item.lit a, Item.lit b] text off = none ↔
      NoneAtOrAfter (litPairAt a b text) off := by
  unfold regexMatch NoneAtOrAfter
  rw [if_pos h, scan_eq_none]
  constructor
  · intro hn j hj hp
    have hb := litPairAt_bound hp
    have := hn j hj (by omega)
    rw [matchAt_pair_some hp] at this
    cases this
  · intro hn j hj _
    exact matchAt_pair_none (hn j hj)

theorem regexMatch_pair_some {a b : Char} {text : QString} {off s e : Nat} :
    regexMatch [Item.lit a, Item.lit b] text off = some (s, e) ↔
      FirstAtOrAfter (litPairAt a b text) off s ∧ e = s + 2 := by
  unfold regexMatch FirstAtOrAfter
  constructor
  · intro hm
    split at hm
    · rw [scan_eq_some] at hm
      obtain ⟨h1, -, h3, h4⟩ := hm
      rw [matchAt_pair_eq_some] at h3
      refine ⟨⟨h1, h3.1, ?_⟩, h3.2⟩
      intro j hj1 hj2 hp
      have := h4 j hj1 hj2
      rw [matchAt_pair_some hp] at this
      cases this
    · cases hm
  · rintro ⟨⟨h1, h2, h3⟩, rfl⟩
    have hb := litPairAt_bound h2
    rw [if_pos (by omega), scan_eq_some]
    exact ⟨h1, by omega, matchAt_pair_some h2, fun j hj1 hj2 => matchAt_pair_none (h3 j hj1 hj2)⟩

theorem indexOf_pair_none {a b : Char} {text : QString} {off : Nat} (h : off ≤ text.length) :
    indexOf text [Item.lit a, Item.lit b] off = none ↔
      NoneAtOrAfter (litPairAt a b text) off := by
  unfold indexOf
  rw [Option.map_eq_none', regexMatch_pair_none h]

theorem indexOf_pair_some {a b : Char} {text : QString} {off s : Nat} :
    indexOf text [Item.lit a, Item.lit b] off = some s ↔
      FirstAtOrAfter (litPairAt a b text) off s := by
  unfold indexOf
  rw [Option.map_eq_some']
  constructor
  · rintro ⟨⟨s1, e⟩, hm, rfl⟩
    exact (regexMatch_pair_some.mp hm).1
  · intro hf
    exact ⟨(s, s + 2), regexMatch_pair_some.mpr ⟨hf, rfl⟩, rfl⟩

/-! ## Bounds of a match, and the fuel of `globalMatch` -/

theorem backtrack_some_elim {k : Nat → Option Nat} {i lo e : Nat} :
    ∀ n, backtrack k i lo n = some e → ∃ c, lo ≤ c ∧ c ≤ n ∧ k (i + c) = some e := by
  intro n
  induction n with
  | zero =>
    intro h
    simp only [backtrack] at h
    split at h
    · exact ⟨0, by omega, Nat.le_refl _, h⟩
    · cases h
  | succ n ih =>
    intro h
    simp only [backtrack] at h
    split at h
    · cases hk : k (i + (n + 1)) with
      | some e2 =>
        rw [hk] at h
        exact ⟨n + 1, by omega, Nat.le_refl _, by rw [hk]; exact h⟩
      | none =>
        rw [hk] at h
        obtain ⟨c, h1, h2, h3⟩ := ih h
        exact ⟨c, h1, by omega, h3⟩
    · cases h

theorem runLength_le (cls : Char → Bool) (text : QString) (i : Nat) :
    runLength cls text i ≤ text.length - i := by
  unfold runLength
  calc ((text.drop i).takeWhile cls).length
      ≤ (text.drop i).length := (List.takeWhile_sublist cls).length_le
    _ = text.length - i := List.length_drop i text

/-- A match ends at or after its start, within the text, and after its start
when the pattern has a consuming item. -/
theorem matchAt_bounds (text : QString) :
    ∀ (re : QRegularExpression) (i e : Nat), i ≤ text.length → matchAt text re i = some e →
      i ≤ e ∧ e ≤ text.length ∧ (re.any Item.consumes = true → i < e) := by
  intro re
  induction re with
  | nil =>
    intro i e hi h
    simp only [matchAt, Option.some.injEq] at h
    subst h
    exact ⟨Nat.le_refl _, hi, fun hc => by simp at hc⟩
  | cons item rest ih =>
    intro i e hi h
    cases item with
    | lit c =>
      simp only [matchAt] at h
      split at h
      · have hlt : i < text.length := by
          have hc : text[i]? = some c := ‹_›
          rw [List.getElem?_eq_some_iff] at hc
          exact hc.1
        obtain ⟨h1, h2, -⟩ := ih (i + 1) e (by omega) h
        exact ⟨by omega, h2, fun _ => by omega⟩
      · cases h
    | star cls =>
      simp only [matchAt] at h
      obtain ⟨c, -, hc, hk⟩ := backtrack_some_elim _ h
      have hrun := runLength_le cls text i
      obtain ⟨h1, h2, h3⟩ := ih (i + c) e (by omega) hk
      refine ⟨by omega, h2, fun hcons => ?_⟩
      have := h3 (by simpa [Item.consumes] using hcons)
      omega
    | plus cls =>
      simp only [matchAt] at h
      obtain ⟨c, hlo, hc, hk⟩ := backtrack_some_elim _ h
      have hrun := runLength_le cls text i
      obtain ⟨h1, h2, -⟩ := ih (i + c) e (by omega) hk
      exact ⟨by omega, h2, fun _ => by omega⟩
    | wordB =>
      simp only [matchAt] at h
      split at h
      · obtain ⟨h1, h2, h3⟩ := ih i e hi h
        exact ⟨h1, h2, fun hcons => h3 (by simpa [Item.consumes] using hcons)⟩
      · cases h
    | ahead c =>
      simp only [matchAt] at h
      split at h
      · obtain ⟨h1, h2, h3⟩ := ih i e hi h
        exact ⟨h1, h2, fun hcons => h3 (by simpa [Item.consumes] using hcons)⟩
      · cases h

theorem regexMatch_bounds {re : QRegularExpression} {text : QString} {off s e : Nat}
    (h : regexMatch re text off = some (s, e)) :
    off ≤ s ∧ s ≤ e ∧ e ≤ text.length ∧ (re.any Item.consumes = true → s < e) := by
  unfold regexMatch at h
  split at h
  · rw [scan_eq_some] at h
    obtain ⟨h1, h2, h3, -⟩ := h
    obtain ⟨h4, h5, h6⟩ := matchAt_bounds text re s e (by omega) h3
    exact ⟨h1, h4, h5, h6⟩
  · cases h

theorem regexMatch_past_end {re : QRegularExpression} {text : QString} {off : Nat}
    (h : text.length < off) : regexMatch re text off = none := by
  unfold regexMatch
  rw [if_neg (by omega)]

/-- The fuel of `globalMatch` is enough: more fuel finds no further match. -/
theorem globalMatchFrom_fuel (re : QRegularExpression) (text : QString) :
    ∀ (fuel off : Nat), text.length + 1 - off ≤ fuel →
      globalMatchFrom re text fuel off =
        globalMatchFrom re text (text.length + 1 - off) off := by
  intro fuel
  induction fuel using Nat.strong_induction_on with
  | _ fuel ih =>
    intro off hfuel
    cases fuel with
    | zero =>
      have : text.length + 1 - off = 0 := by omega
      rw [this]
    | succ fuel =>
      cases hm : regexMatch re text off with
      | none =>
        cases hn : text.length + 1 - off with
        | zero => simp only [globalMatchFrom, hm]
        | succ n => simp only [globalMatchFrom, hm]
      | some m =>
        obtain ⟨s, e⟩ := m
        obtain ⟨h1, h2, h3, -⟩ := regexMatch_bounds hm
        obtain ⟨n, hn⟩ : ∃ n, text.length + 1 - off = n + 1 :=
          ⟨text.length - off, by omega⟩
        rw [hn]
        simp only [globalMatchFrom, hm]
        have hnext : text.length + 1 - (if e = s then e + 1 else e) ≤ n := by
          split <;> omega
        rw [ih fuel (Nat.lt_succ_self _) _ (by omega)]
        by_cases hnf : n = fuel
        · subst hnf
          rw [ih n (Nat.lt_succ_self _) _ hnext]
        · rw [ih n (by omega) _ hnext]

/-- Every pattern of the rule table consumes a character, so no rule ever
matches the empty string. -/
theorem highlightingRules_consume :
    ∀ rule ∈ highlightingRules, rule.pattern.any Item.consumes = true := by
  decide

/-! ## The block-comment loop computes the scan of the specification -/

theorem scanFrom_of_runFrom {text : QString} {off s : Nat} {spans : List (Nat × Nat)}
    {open_ : Bool} (hs : FirstAtOrAfter (commentStartAt text) off s)
    (hr : RunFrom text s spans open_) : ScanFrom text off spans open_ := by
  rcases hr with ⟨hn, rfl, rfl⟩ | ⟨e, rest, he, hrest, rfl⟩
  · exact ScanFrom.unterminated off s hs hn
  · exact ScanFrom.terminated off s e rest open_ hs he hrest

theorem commentLoop_runFrom (text : QString) :
    ∀ (fuel s : Nat) (state : Int), s ≤ text.length → text.length - s < fuel →
      ∃ spans open_, RunFrom text s spans open_ ∧
        commentLoop text fuel s state =
          some (spans.map commentSpan, if open_ = true then 1 else state) := by
  intro fuel
  induction fuel with
  | zero =>
    intro s state _ h
    omega
  | succ fuel ih =>
    intro s state hs hfuel
    cases hE : regexMatch commentEndExpression text s with
    | none =>
      have hnone : NoneAtOrAfter (commentEndAt text) s := (regexMatch_pair_none hs).mp hE
      have hstart : indexOf text commentStartExpression (s + (text.length - s)) = none := by
        rw [show s + (text.length - s) = text.length by omega]
        refine (indexOf_pair_none (Nat.le_refl _)).mpr ?_
        intro j hj hp
        have := litPairAt_bound hp
        omega
      refine ⟨[(s, text.length - s)], true, Or.inl ⟨hnone, rfl, rfl⟩, ?_⟩
      simp only [commentLoop, hE, hstart]
      rfl
    | some m =>
      obtain ⟨e, e1⟩ := m
      obtain ⟨hfirst, rfl⟩ := regexMatch_pair_some.mp hE
      have hb := litPairAt_bound hfirst.2.1
      have hle := hfirst.1
      have hlen : s + (e + 2 - s) = e + 2 := by omega
      have hcount : e - s + (e + 2 - e) = e + 2 - s := by omega
      cases hS : indexOf text commentStartExpression (e + 2) with
      | none =>
        have hnone : NoneAtOrAfter (commentStartAt text) (e + 2) := (indexOf_pair_none hb).mp hS
        refine ⟨[(s, e + 2 - s)], false,
          Or.inr ⟨e, [], hfirst, ScanFrom.done _ hnone, rfl⟩, ?_⟩
        simp only [commentLoop, hE, hcount, hlen, hS]
        rfl
      | some next =>
        have hnext : FirstAtOrAfter (commentStartAt text) (e + 2) next := indexOf_pair_some.mp hS
        have hnb := litPairAt_bound hnext.2.1
        have hnle := hnext.1
        obtain ⟨spans, open_, hrun, hloop⟩ := ih next state (by omega) (by omega)
        refine ⟨(s, e + 2 - s) :: spans, open_,
          Or.inr ⟨e, spans, hfirst, scanFrom_of_runFrom hnext hrun, rfl⟩, ?_⟩
        simp only [commentLoop, hE, hcount, hlen, hS, hloop]
        rfl

theorem commentPass_inside (text : QString) :
    ∃ spans open_, RunFrom text 0 spans open_ ∧
      commentPass text 1 = some (spans.map commentSpan, stateOfFlag open_) := by
  obtain ⟨spans, open_, hrun, hloop⟩ :=
    commentLoop_runFrom text (text.length + 1) 0 0 (Nat.zero_le _) (by omega)
  refine ⟨spans, open_, hrun, ?_⟩
  simp only [commentPass, ne_eq, not_true_eq_false, if_false, hloop, stateOfFlag]

theorem commentPass_outside (text : QString) (previous : Int) (h : previous ≠ 1) :
    ∃ spans open_, ScanFrom text 0 spans open_ ∧
      commentPass text previous = some (spans.map commentSpan, stateOfFlag open_) := by
  cases hS : indexOf text commentStartExpression 0 with
  | none =>
    refine ⟨[], false, ScanFrom.done 0 ((indexOf_pair_none (Nat.zero_le _)).mp hS), ?_⟩
    simp only [commentPass, ne_eq, h, not_false_eq_true, if_true, hS]
    rfl
  | some s =>
    have hfirst : FirstAtOrAfter (commentStartAt text) 0 s := indexOf_pair_some.mp hS
    have hb := litPairAt_bound hfirst.2.1
    obtain ⟨spans, open_, hrun, hloop⟩ :=
      commentLoop_runFrom text (text.length + 1) s 0 (by omega) (by omega)
    refine ⟨spans, open_, scanFrom_of_runFrom hfirst hrun, ?_⟩
    simp only [commentPass, ne_eq, h, not_false_eq_true, if_true, hS, hloop, stateOfFlag]

theorem highlightBlock_of_commentPass {text : QString} {previous : Int}
    {spans : List StyledSpan} {state : Int}
    (h : commentPass text previous = some (spans, state)) :
    highlightBlock text previous = some (rulePass text ++ spans, state) := by
  simp only [highlightBlock, h]

theorem firstAtOrAfter_unique {P : Nat → Prop} {off s t : Nat}
    (hs : FirstAtOrAfter P off s) (ht : FirstAtOrAfter P off t) : s = t := by
  obtain ⟨hs1, hs2, hs3⟩ := hs
  obtain ⟨ht1, ht2, ht3⟩ := ht
  by_contra hne
  rcases Nat.lt_or_gt_of_ne hne with hlt | hgt
  · exact ht3 s hs1 hlt hs2
  · exact hs3 t ht1 hgt ht2

theorem scanFrom_unique {text : QString} {off : Nat} {spans spans2 : List (Nat × Nat)}
    {open_ open2 : Bool} (h1 : ScanFrom text off spans open_)
    (h2 : ScanFrom text off spans2 open2) : spans = spans2 ∧ open_ = open2 := by
  induction h1 generalizing spans2 open2 with
  | done off hn =>
    cases h2 with
    | done _ _ => exact ⟨rfl, rfl⟩
    | unterminated _ s hs _ => exact absurd hs.2.1 (hn s hs.1)
    | terminated _ s e rest o hs _ _ => exact absurd hs.2.1 (hn s hs.1)
  | unterminated off s hs hn =>
    cases h2 with
    | done _ hn2 => exact absurd hs.2.1 (hn2 s hs.1)
    | unterminated _ s2 hs2 _ =>
      have := firstAtOrAfter_unique hs hs2
      subst this
      exact ⟨rfl, rfl⟩
    | terminated _ s2 e rest o hs2 he _ =>
      have := firstAtOrAfter_unique hs hs2
      subst this
      exact absurd he.2.1 (hn e he.1)
  | terminated off s e rest o hs he _ ih =>
    cases h2 with
    | done _ hn2 => exact absurd hs.2.1 (hn2 s hs.1)
    | unterminated _ s2 hs2 hn2 =>
      have := firstAtOrAfter_unique hs hs2
      subst this
      exact absurd he.2.1 (hn2 e he.1)
    | terminated _ s2 e2 rest2 o2 hs2 he2 hrest2 =>
      have := firstAtOrAfter_unique hs hs2
      subst this
      have := firstAtOrAfter_unique he he2
      subst this
      obtain ⟨hr, ho⟩ := ih hrest2
      subst hr
      subst ho
      exact ⟨rfl, rfl⟩

/-! ## Replaying `setFormat` calls -/

theorem length_setFormatFrom (start count : Nat) (fmt : QTextCharFormat) :
    ∀ (buf : List QTextCharFormat) (i : Nat),
      (setFormatFrom start count fmt i buf).length = buf.length := by
  intro buf
  induction buf with
  | nil => intro i; rfl
  | cons b bs ih => intro i; simp [setFormatFrom, ih]

theorem getElem?_setFormatFrom (start count : Nat) (fmt : QTextCharFormat) :
    ∀ (buf : List QTextCharFormat) (i k : Nat),
      (setFormatFrom start count fmt i buf)[k]? =
        if start ≤ i + k ∧ i + k < start + count then (buf[k]?).map (fun _ => fmt)
        else buf[k]? := by
  intro buf
  induction buf with
  | nil => intro i k; simp [setFormatFrom]
  | cons b bs ih =>
    intro i k
    cases k with
    | zero =>
      simp only [setFormatFrom, List.getElem?_cons_zero, Nat.add_zero, Option.map_some']
      split <;> rfl
    | succ k =>
      simp only [setFormatFrom, List.getElem?_cons_succ]
      rw [ih (i + 1) k, show i + 1 + k = i + (k + 1) by omega]

theorem length_setFormat (buf : List QTextCharFormat) (start count : Nat)
    (fmt : QTextCharFormat) : (setFormat buf start count fmt).length = buf.length :=
  length_setFormatFrom start count fmt buf 0

theorem getElem?_setFormat (buf : List QTextCharFormat) (start count : Nat)
    (fmt : QTextCharFormat) (k : Nat) :
    (setFormat buf start count fmt)[k]? =
      if start ≤ k ∧ k < start + count then (buf[k]?).map (fun _ => fmt) else buf[k]? := by
  unfold setFormat
  rw [getElem?_setFormatFrom, Nat.zero_add]

theorem applySpans_append (buf : List QTextCharFormat) (xs ys : List StyledSpan) :
    applySpans buf (xs ++ ys) = applySpans (applySpans buf xs) ys := by
  simp [applySpans, List.foldl_append]

theorem length_applySpans (spans : List StyledSpan) :
    ∀ buf : List QTextCharFormat, (applySpans buf spans).length = buf.length := by
  induction spans with
  | nil => intro buf; rfl
  | cons sp rest ih =>
    intro buf
    show (applySpans (setFormat buf sp.start sp.length sp.format) rest).length = _
    rw [ih, length_setFormat]

/-- Spans that do not cover an offset leave its format alone. -/
theorem applySpans_not_covered (spans : List StyledSpan) (k : Nat) :
    ∀ buf : List QTextCharFormat, (∀ sp ∈ spans, ¬ sp.covers k) →
      (applySpans buf spans)[k]? = buf[k]? := by
  induction spans with
  | nil => intro buf _; rfl
  | cons sp rest ih =>
    intro buf h
    show (applySpans (setFormat buf sp.start sp.length sp.format) rest)[k]? = _
    rw [ih _ (fun x hx => h x (List.mem_cons_of_mem _ hx)), getElem?_setFormat]
    have hsp : ¬ (sp.start ≤ k ∧ k < sp.start + sp.length) := h sp (List.mem_cons_self _ _)
    rw [if_neg hsp]

/-- After spans of one format, an offset that one of them covers has that format. -/
theorem applySpans_covered (spans : List StyledSpan) (fmt : QTextCharFormat) (k : Nat) :
    ∀ buf : List QTextCharFormat, k < buf.length → (∀ sp ∈ spans, sp.format = fmt) →
      (∃ sp ∈ spans, sp.covers k) → (applySpans buf spans)[k]? = some fmt := by
  induction spans with
  | nil =>
    intro buf _ _ h
    obtain ⟨sp, hsp, -⟩ := h
    cases hsp
  | cons sp rest ih =>
    intro buf hk hf hc
    show (applySpans (setFormat buf sp.start sp.length sp.format) rest)[k]? = _
    by_cases hrest : ∃ x ∈ rest, x.covers k
    · exact ih _ (by rw [length_setFormat]; exact hk)
        (fun x hx => hf x (List.mem_cons_of_mem _ hx)) hrest
    · have hnone : ∀ x ∈ rest, ¬ x.covers k := fun x hx hcov => hrest ⟨x, hx, hcov⟩
      have hsp : sp.covers k := by
        obtain ⟨x, hx, hcov⟩ := hc
        rcases List.mem_cons.mp hx with rfl | hx
        · exact hcov
        · exact absurd hcov (hnone x hx)
      have hsp2 : sp.start ≤ k ∧ k < sp.start + sp.length := hsp
      rw [applySpans_not_covered rest k _ hnone, getElem?_setFormat, if_pos hsp2,
        List.getElem?_eq_getElem hk, hf sp (List.mem_cons_self _ _)]
      rfl

theorem length_formatsOf (text : QString) (spans : List StyledSpan) :
    (formatsOf text spans).length = text.length := by
  unfold formatsOf
  rw [length_applySpans, List.length_replicate]

theorem formatsOf_append_not_covered (text : QString) (xs ys : List StyledSpan) (k : Nat)
    (h : ∀ sp ∈ ys, ¬ sp.covers k) :
    (formatsOf text (xs ++ ys))[k]? = (formatsOf text xs)[k]? := by
  unfold formatsOf
  rw [applySpans_append, applySpans_not_covered ys k _ h]

theorem formatsOf_append_covered (text : QString) (xs ys : List StyledSpan)
    (fmt : QTextCharFormat) (k : Nat) (hk : k < text.length)
    (hf : ∀ sp ∈ ys, sp.format = fmt) (hc : ∃ sp ∈ ys, sp.covers k) :
    (formatsOf text (xs ++ ys))[k]? = some fmt := by
  unfold formatsOf
  rw [applySpans_append]
  exact applySpans_covered ys fmt k _
    (by rw [length_applySpans, List.length_replicate]; exact hk) hf hc

theorem commentSpan_format (spans : List (Nat × Nat)) :
    ∀ sp ∈ spans.map commentSpan, sp.format = multiLineCommentFormat := by
  intro sp hsp
  obtain ⟨p, -, rfl⟩ := List.mem_map.mp hsp
  rfl

/-- A whole-line comment span styles every character of the line. -/
theorem formatsOf_whole_line (text : QString) (xs : List StyledSpan) :
    formatsOf text (xs ++ [⟨0, text.length, multiLineCommentFormat⟩]) =
      List.replicate text.length multiLineCommentFormat := by
  apply List.ext_getElem?
  intro k
  by_cases hk : k < text.length
  · rw [formatsOf_append_covered text xs _ multiLineCommentFormat k hk
      (fun sp hsp => by rw [List.mem_singleton.mp hsp])
      ⟨_, List.mem_singleton_self _, ⟨Nat.zero_le _, by simpa using hk⟩⟩]
    rw [List.getElem?_replicate, if_pos hk]
  · rw [List.getElem?_eq_none (by rw [length_formatsOf]; omega),
      List.getElem?_eq_none (by rw [List.length_replicate]; omega)]

theorem runFrom_of_no_end {text : QString} {s : Nat} {spans : List (Nat × Nat)} {open_ : Bool}
    (hr : RunFrom text s spans open_) (hn : NoneAtOrAfter (commentEndAt text) s) :
    spans = [(s, text.length - s)] ∧ open_ = true := by
  rcases hr with ⟨-, h1, h2⟩ | ⟨e, rest, he, -, -⟩
  · exact ⟨h1, h2⟩
  · exact absurd he.2.1 (hn e he.1)

theorem runFrom_of_first_end {text : QString} {s e : Nat} {spans : List (Nat × Nat)}
    {open_ : Bool} (hr : RunFrom text s spans open_)
    (he : FirstAtOrAfter (commentEndAt text) s e) :
    ∃ rest, ScanFrom text (e + 2) rest open_ ∧ spans = (s, e + 2 - s) :: rest := by
  rcases hr with ⟨hn, -, -⟩ | ⟨e2, rest, he2, hrest, hsp⟩
  · exact absurd he.2.1 (hn e he.1)
  · have := firstAtOrAfter_unique he he2
    subst this
    exact ⟨rest, hrest, hsp⟩

theorem scanFrom_of_no_start {text : QString} {off : Nat} {spans : List (Nat × Nat)}
    {open_ : Bool} (hr : ScanFrom text off spans open_)
    (hn : NoneAtOrAfter (commentStartAt text) off) : spans = [] ∧ open_ = false :=
  scanFrom_unique hr (ScanFrom.done off hn)

/-- The spans of a scan started at `off` begin at or after `off`. -/
theorem scanFrom_start_ge {text : QString} {off : Nat} {spans : List (Nat × Nat)}
    {open_ : Bool} (hr : ScanFrom text off spans open_) :
    ∀ p ∈ spans, off ≤ p.1 ∧ commentStartAt text p.1 := by
  induction hr with
  | done off hn =>
    intro p hp
    cases hp
  | unterminated off s hs hn =>
    intro p hp
    rw [List.mem_singleton.mp hp]
    exact ⟨hs.1, hs.2.1⟩
  | terminated off s e rest o hs he _ ih =>
    intro p hp
    rcases List.mem_cons.mp hp with rfl | hp
    · exact ⟨hs.1, hs.2.1⟩
    · have := ih p hp
      have h1 := hs.1
      have h2 := he.1
      exact ⟨by omega, this.2⟩

/-- The flag of a scan is set exactly when its last span is an unterminated one. -/
theorem scanFrom_open_iff {text : QString} {off : Nat} {spans : List (Nat × Nat)}
    {open_ : Bool} (hr : ScanFrom text off spans open_) :
    open_ = true ↔
      ∃ s, spans.getLast? = some (s, text.length - s) ∧ NoneAtOrAfter (commentEndAt text) s := by
  induction hr with
  | done off hn => simp
  | unterminated off s hs hn =>
    simp only [List.getLast?_singleton, Option.some.injEq, Prod.mk.injEq, true_iff]
    exact ⟨s, ⟨rfl, rfl⟩, hn⟩
  | terminated off s e rest o hs he hrest ih =>
    cases rest with
    | nil =>
      rw [ih]
      simp only [List.getLast?_nil, reduceCtorEq, false_and, exists_false, List.getLast?_singleton,
        Option.some.injEq, Prod.mk.injEq, false_iff, not_exists, not_and]
      rintro s2 ⟨rfl, -⟩ hn
      exact hn e he.1 he.2.1
    | cons p ps =>
      rw [ih, List.getLast?_cons_cons]

/-- Every call of `highlightBlock` returns: the fuel of its loop is enough. -/
theorem highlightBlock_returns (text : QString) (previous : Int) :
    ∃ r, highlightBlock text previous = some r := by
  by_cases h : previous = 1
  · subst h
    obtain ⟨spans, open_, -, hp⟩ := commentPass_inside text
    exact ⟨_, highlightBlock_of_commentPass hp⟩
  · obtain ⟨spans, open_, -, hp⟩ := commentPass_outside text previous h
    exact ⟨_, highlightBlock_of_commentPass hp⟩

theorem no_commentStart_of_indexOf {text : QString}
    (h : indexOf text commentStartExpression 0 = none) : ∀ j, ¬ commentStartAt text j :=
  fun j => (indexOf_pair_none (Nat.zero_le _)).mp h j (Nat.zero_le _)

theorem no_commentEnd_of_indexOf {text : QString}
    (h : indexOf text commentEndExpression 0 = none) : ∀ j, ¬ commentEndAt text j :=
  fun j => (indexOf_pair_none (Nat.zero_le _)).mp h j (Nat.zero_le _)

/-! ## Lines without comment delimiters -/

/-- C2. A line that contains neither `/*` nor `*/`: with a previous block state
other than 1 the `setFormat` calls are exactly those of the rule pass and the
block state is 0; with previous block state 1 the calls are those of the rule
pass followed by one comment span over the whole line, so every character
ends up with the comment format, and the block state is 1. -/
theorem highlightBlock_no_delimiters (text : QString)
    (hs : ∀ j, ¬ commentStartAt text j) (he : ∀ j, ¬ commentEndAt text j) :
    (∀ previous : Int, previous ≠ 1 → highlightBlock text previous = some (rulePass text, 0)) ∧
    highlightBlock text 1 =
      some (rulePass text ++ [⟨0, text.length, multiLineCommentFormat⟩], 1) ∧
    formatsOf text (rulePass text ++ [⟨0, text.length, multiLineCommentFormat⟩]) =
      List.replicate text.length multiLineCommentFormat := by
  refine ⟨?_, ?_, formatsOf_whole_line text _⟩
  · intro previous hp
    obtain ⟨spans, open_, hscan, hpass⟩ := commentPass_outside text previous hp
    obtain ⟨rfl, rfl⟩ := scanFrom_of_no_start hscan (fun j _ => hs j)
    rw [highlightBlock_of_commentPass hpass]
    simp [stateOfFlag]
  · obtain ⟨spans, open_, hrun, hpass⟩ := commentPass_inside text
    obtain ⟨rfl, rfl⟩ := runFrom_of_no_end hrun (fun j _ => he j)
    rw [highlightBlock_of_commentPass hpass]
    rfl

set_option maxRecDepth 100000 in
/-- C2 at the line `int x = 1;`. -/
theorem highlightBlock_no_delimiters_witness :
    (∀ previous : Int, previous ≠ 1 →
      highlightBlock "int x = 1;".toList previous = some (rulePass "int x = 1;".toList, 0)) ∧
    highlightBlock "int x = 1;".toList 1 =
      some (rulePass "int x = 1;".toList ++
        [⟨0, "int x = 1;".toList.length, multiLineCommentFormat⟩], 1) ∧
    formatsOf "int x = 1;".toList (rulePass "int x = 1;".toList ++
        [⟨0, "int x = 1;".toList.length, multiLineCommentFormat⟩]) =
      List.replicate "int x = 1;".toList.length multiLineCommentFormat :=
  highlightBlock_no_delimiters "int x = 1;".toList
    (no_commentStart_of_indexOf (by decide)) (no_commentEnd_of_indexOf (by decide))

/-! ## A line that starts inside a block comment -/

/-- C3. A line highlighted with previous block state 1 whose first `*/` is at
offset `e`: the comment loop first formats the span `[0, e + 2)`, and the rest
of its spans and the block state are those of the scan for `/*` resumed at
offset `e + 2`; every offset below `e + 2` ends up with the comment format; and
when no `/*` occurs at or after `e + 2` the block state is 0 and every offset
from `e + 2` on keeps the format the rule pass gave it. -/
theorem highlightBlock_inside_first_end (text : QString) (e : Nat)
    (he : FirstAtOrAfter (commentEndAt text) 0 e) :
    ∃ rest open_, ScanFrom text (e + 2) rest open_ ∧
      highlightBlock text 1 =
        some (rulePass text ++ commentSpan (0, e + 2) :: rest.map commentSpan,
          stateOfFlag open_) ∧
      (∀ i, i < e + 2 →
        (formatsOf text (rulePass text ++ commentSpan (0, e + 2) :: rest.map commentSpan))[i]? =
          some multiLineCommentFormat) ∧
      (NoneAtOrAfter (commentStartAt text) (e + 2) →
        rest = [] ∧ open_ = false ∧
        ∀ i, e + 2 ≤ i →
          (formatsOf text (rulePass text ++ commentSpan (0, e + 2) :: rest.map commentSpan))[i]? =
            (formatsOf text (rulePass text))[i]?) := by
  obtain ⟨spans, open_, hrun, hpass⟩ := commentPass_inside text
  obtain ⟨rest, hrest, rfl⟩ := runFrom_of_first_end hrun he
  have hb := litPairAt_bound he.2.1
  refine ⟨rest, open_, hrest, ?_, ?_, ?_⟩
  · rw [highlightBlock_of_commentPass hpass]
    rfl
  · intro i hi
    refine formatsOf_append_covered text _ _ multiLineCommentFormat i (by omega) ?_ ?_
    · exact commentSpan_format ((0, e + 2) :: rest)
    · exact ⟨commentSpan (0, e + 2), List.mem_cons_self _ _, ⟨Nat.zero_le _, by
        show i < 0 + (e + 2)
        omega⟩⟩
  · intro hn
    obtain ⟨rfl, rfl⟩ := scanFrom_of_no_start hrest hn
    refine ⟨rfl, rfl, ?_⟩
    intro i hi
    refine formatsOf_append_not_covered text _ _ i ?_
    intro sp hsp
    rw [List.map_nil, List.mem_singleton] at hsp
    subst hsp
    intro hc
    have : i < 0 + (e + 2) := hc.2
    omega

set_option maxRecDepth 100000 in
/-- C3 at the line `end */ int z;`, whose first `*/` is at offset 4. -/
theorem highlightBlock_inside_first_end_witness :
    FirstAtOrAfter (commentEndAt "end */ int z;".toList) 0 4 ∧
    ∃ rest open_, ScanFrom "end */ int z;".toList (4 + 2) rest open_ ∧
      highlightBlock "end */ int z;".toList 1 =
        some (rulePass "end */ int z;".toList ++ commentSpan (0, 4 + 2) :: rest.map commentSpan,
          stateOfFlag open_) ∧
      (∀ i, i < 4 + 2 →
        (formatsOf "end */ int z;".toList
          (rulePass "end */ int z;".toList ++ commentSpan (0, 4 + 2) :: rest.map commentSpan))[i]? =
          some multiLineCommentFormat) ∧
      (NoneAtOrAfter (commentStartAt "end */ int z;".toList) (4 + 2) →
        rest = [] ∧ open_ = false ∧
        ∀ i, 4 + 2 ≤ i →
          (formatsOf "end */ int z;".toList
            (rulePass "end */ int z;".toList ++ commentSpan (0, 4 + 2) :: rest.map commentSpan))[i]? =
            (formatsOf "end */ int z;".toList (rulePass "end */ int z;".toList))[i]?) :=
  ⟨indexOf_pair_some.mp (by decide),
    highlightBlock_inside_first_end "end */ int z;".toList 4 (indexOf_pair_some.mp (by decide))⟩

set_option maxRecDepth 100000 in
/-- The example of C3: `end */ int z;` after a line that ended inside a comment
gets the keyword span `[7, 10)`, then the comment span `[0, 6)`, block state 0;
its characters are comment at offsets 0 to 5, keyword at 7 to 9, plain elsewhere. -/
theorem highlightBlock_end_int_z :
    highlightBlock "end */ int z;".toList 1 =
      some ([⟨7, 3, keywordFormat⟩, ⟨0, 6, multiLineCommentFormat⟩], 0) ∧
    formatsOf "end */ int z;".toList [⟨7, 3, keywordFormat⟩, ⟨0, 6, multiLineCommentFormat⟩] =
      List.replicate 6 multiLineCommentFormat ++ [plainFormat] ++
        List.replicate 3 keywordFormat ++ List.replicate 3 plainFormat := by
  decide

/-! ## A line that starts outside a block comment -/

/-- C4. A line highlighted with a previous block state other than 1: the spans
the comment loop formats and the flag it leaves are those of the left-to-right
scan of the specification started at offset 0, which determines them uniquely;
the block state is 1 exactly when the last span is an unterminated one; and an
offset with no `/*` at or before it keeps the format the rule pass gave it. -/
theorem highlightBlock_outside_scan (text : QString) (previous : Int) (h : previous ≠ 1) :
    ∃ spans open_, ScanFrom text 0 spans open_ ∧
      (∀ spans2 open2, ScanFrom text 0 spans2 open2 → spans2 = spans ∧ open2 = open_) ∧
      highlightBlock text previous =
        some (rulePass text ++ spans.map commentSpan, stateOfFlag open_) ∧
      (stateOfFlag open_ = 1 ↔
        ∃ s, spans.getLast? = some (s, text.length - s) ∧
          NoneAtOrAfter (commentEndAt text) s) ∧
      (∀ i, (∀ j, j ≤ i → ¬ commentStartAt text j) →
        (formatsOf text (rulePass text ++ spans.map commentSpan))[i]? =
          (formatsOf text (rulePass text))[i]?) := by
  obtain ⟨spans, open_, hscan, hpass⟩ := commentPass_outside text previous h
  refine ⟨spans, open_, hscan, ?_, highlightBlock_of_commentPass hpass, ?_, ?_⟩
  · intro spans2 open2 h2
    exact scanFrom_unique h2 hscan
  · rw [← scanFrom_open_iff hscan]
    cases open_ <;> simp [stateOfFlag]
  · intro i hi
    refine formatsOf_append_not_covered text _ _ i ?_
    intro sp hsp hc
    obtain ⟨p, hp, rfl⟩ := List.mem_map.mp hsp
    have hstart := (scanFrom_start_ge hscan p hp).2
    have hle : p.1 ≤ i := hc.1
    exact hi p.1 hle hstart

/-- C4 at the line `int /* x` with previous block state 0. -/
theorem highlightBlock_outside_scan_witness :
    (0 : Int) ≠ 1 ∧
    ∃ spans open_, ScanFrom "int /* x".toList 0 spans open_ ∧
      (∀ spans2 open2, ScanFrom "int /* x".toList 0 spans2 open2 →
        spans2 = spans ∧ open2 = open_) ∧
      highlightBlock "int /* x".toList 0 =
        some (rulePass "int /* x".toList ++ spans.map commentSpan, stateOfFlag open_) ∧
      (stateOfFlag open_ = 1 ↔
        ∃ s, spans.getLast? = some (s, "int /* x".toList.length - s) ∧
          NoneAtOrAfter (commentEndAt "int /* x".toList) s) ∧
      (∀ i, (∀ j, j ≤ i → ¬ commentStartAt "int /* x".toList j) →
        (formatsOf "int /* x".toList (rulePass "int /* x".toList ++ spans.map commentSpan))[i]? =
          (formatsOf "int /* x".toList (rulePass "int /* x".toList))[i]?) :=
  ⟨by decide, highlightBlock_outside_scan "int /* x".toList 0 (by decide)⟩

set_option maxRecDepth 100000 in
/-- The examples of C4: `/*/` is one complete comment of three characters, and
the keyword before the unterminated `/*` of `int /* x` stays keyword. -/
theorem highlightBlock_outside_examples :
    highlightBlock "/*/".toList 0 = some ([⟨0, 3, multiLineCommentFormat⟩], 0) ∧
    highlightBlock "int /* x".toList 0 =
      some ([⟨0, 3, keywordFormat⟩, ⟨4, 4, multiLineCommentFormat⟩], 1) ∧
    formatsOf "int /* x".toList [⟨0, 3, keywordFormat⟩, ⟨4, 4, multiLineCommentFormat⟩] =
      List.replicate 3 keywordFormat ++ [plainFormat] ++
        List.replicate 4 multiLineCommentFormat ∧
    highlightBlock "a /* b */ c /* d */ e /* f".toList 0 =
      some ([⟨2, 7, multiLineCommentFormat⟩, ⟨12, 7, multiLineCommentFormat⟩,
        ⟨22, 4, multiLineCommentFormat⟩], 1) := by
  decide

/-! ## Propagation of the block-comment state down a document -/

theorem highlightBlocks_cons {previous : Int} {text : QString} {rest : List QString}
    {results : List (List StyledSpan × Int)}
    (h : highlightBlocks previous (text :: rest) = some results) :
    ∃ r rs, highlightBlock text previous = some r ∧ highlightBlocks r.2 rest = some rs ∧
      results = r :: rs := by
  cases hb : highlightBlock text previous with
  | none => simp [highlightBlocks, hb] at h
  | some r =>
    cases hr : highlightBlocks r.2 rest with
    | none => simp [highlightBlocks, hb, hr] at h
    | some rs =>
      simp only [highlightBlocks, hb, hr, Option.some.injEq] at h
      exact ⟨r, rs, rfl, hr, h.symm⟩

/-- Highlighting a document returns, with one result per line. -/
theorem highlightBlocks_returns (lines : List QString) :
    ∀ previous : Int, ∃ results, highlightBlocks previous lines = some results ∧
      results.length = lines.length := by
  induction lines with
  | nil => intro previous; exact ⟨[], rfl, rfl⟩
  | cons text rest ih =>
    intro previous
    obtain ⟨r, hr⟩ := highlightBlock_returns text previous
    obtain ⟨rs, hrs, hlen⟩ := ih r.2
    refine ⟨r :: rs, ?_, by simp [hlen]⟩
    simp only [highlightBlocks, hr, hrs]

theorem highlightBlock_inside_no_end (text : QString) (he : ∀ j, ¬ commentEndAt text j) :
    highlightBlock text 1 =
      some (rulePass text ++ [⟨0, text.length, multiLineCommentFormat⟩], 1) := by
  obtain ⟨spans, open_, hrun, hpass⟩ := commentPass_inside text
  obtain ⟨rfl, rfl⟩ := runFrom_of_no_end hrun (fun j _ => he j)
  rw [highlightBlock_of_commentPass hpass]
  rfl

/-- A scan that meets a `/*` at `p` with no `*/` from `p - 1` on ends inside a comment. -/
theorem scanFrom_open_of_start {text : QString} {off : Nat} {spans : List (Nat × Nat)}
    {open_ : Bool} (hr : ScanFrom text off spans open_) (p : Nat) (hp : off ≤ p)
    (hstart : commentStartAt text p) (hend : ∀ j, p ≤ j + 1 → ¬ commentEndAt text j) :
    open_ = true := by
  induction hr with
  | done off hn => exact absurd hstart (hn p hp)
  | unterminated off s hs hn => rfl
  | terminated off s e rest o hs he _ ih =>
    have hsp : s ≤ p := by
      by_contra hlt
      exact hs.2.2 p hp (by omega) hstart
    have hep : e + 2 ≤ p := by
      by_contra hlt
      exact hend e (by omega) he.2.1
    exact ih hep

/-- A line with a `/*` at `p` and no `*/` from `p - 1` on leaves block state 1,
whatever the previous block state. -/
theorem highlightBlock_open (text : QString) (previous : Int) (p : Nat)
    (hstart : commentStartAt text p) (hend : ∀ j, p ≤ j + 1 → ¬ commentEndAt text j) :
    ∃ spans, highlightBlock text previous = some (spans, 1) := by
  by_cases h : previous = 1
  · subst h
    obtain ⟨spans, open_, hrun, hpass⟩ := commentPass_inside text
    have ho : open_ = true := by
      rcases hrun with ⟨-, -, ho⟩ | ⟨e, rest, he, hrest, -⟩
      · exact ho
      · have hep : e + 2 ≤ p := by
          by_contra hlt
          exact hend e (by omega) he.2.1
        exact scanFrom_open_of_start hrest p hep hstart hend
    subst ho
    exact ⟨_, highlightBlock_of_commentPass hpass⟩
  · obtain ⟨spans, open_, hscan, hpass⟩ := commentPass_outside text previous h
    have ho : open_ = true := scanFrom_open_of_start hscan p (Nat.zero_le _) hstart hend
    subst ho
    exact ⟨_, highlightBlock_of_commentPass hpass⟩

/-- Below a line that ended inside a comment, lines without `*/` are comment
throughout and stay inside the comment. -/
theorem highlightBlocks_inside (lines : List QString) :
    ∀ (results : List (List StyledSpan × Int)), highlightBlocks 1 lines = some results →
      ∀ (m : Nat) (u : QString), lines[m]? = some u →
        (∀ l v, l ≤ m → lines[l]? = some v → ∀ j, ¬ commentEndAt v j) →
        ∃ spans, results[m]? = some (spans, 1) ∧
          formatsOf u spans = List.replicate u.length multiLineCommentFormat := by
  induction lines with
  | nil =>
    intro results _ m u hu
    cases hu
  | cons text rest ih =>
    intro results hres m u hu hno
    obtain ⟨r, rs, hr, hrs, rfl⟩ := highlightBlocks_cons hres
    have hfirst := highlightBlock_inside_no_end text
      (hno 0 text (Nat.zero_le _) List.getElem?_cons_zero)
    rw [hfirst] at hr
    have hr2 := Option.some.inj hr
    subst hr2
    cases m with
    | zero =>
      have : u = text := by simpa using hu.symm
      subst this
      exact ⟨_, List.getElem?_cons_zero, formatsOf_whole_line u _⟩
    | succ m =>
      obtain ⟨sp, h1, h2⟩ := ih rs hrs m u (by simpa using hu)
        (fun l v hl hv => hno (l + 1) v (by omega) (by simpa using hv))
      exact ⟨sp, by simpa using h1, h2⟩

theorem highlightBlocks_propagation (lines : List QString) :
    ∀ (previous : Int) (results : List (List StyledSpan × Int)),
      highlightBlocks previous lines = some results →
      ∀ (k p : Nat) (t : QString), lines[k]? = some t → commentStartAt t p →
        (∀ j, p ≤ j + 1 → ¬ commentEndAt t j) →
        ∀ (m : Nat) (u : QString), k ≤ m → lines[m]? = some u →
          (∀ l v, k < l → l ≤ m → lines[l]? = some v → ∀ j, ¬ commentEndAt v j) →
          ∃ spans, results[m]? = some (spans, 1) ∧
            (k < m → formatsOf u spans = List.replicate u.length multiLineCommentFormat) := by
  induction lines with
  | nil =>
    intro previous results _ k p t ht
    cases ht
  | cons text rest ih =>
    intro previous results hres k p t ht hstart hend m u hkm hu hno
    obtain ⟨r, rs, hr, hrs, rfl⟩ := highlightBlocks_cons hres
    cases k with
    | zero =>
      have : t = text := by simpa using ht.symm
      subst this
      obtain ⟨spans, hopen⟩ := highlightBlock_open t previous p hstart hend
      rw [hopen] at hr
      have hr2 := Option.some.inj hr
      subst hr2
      cases m with
      | zero => exact ⟨spans, List.getElem?_cons_zero, fun h => absurd h (Nat.lt_irrefl _)⟩
      | succ m =>
        obtain ⟨sp, h1, h2⟩ := highlightBlocks_inside rest rs hrs m u (by simpa using hu)
          (fun l v hl hv => hno (l + 1) v (by omega) (by omega) (by simpa using hv))
        exact ⟨sp, by simpa using h1, fun _ => h2⟩
    | succ k =>
      cases m with
      | zero => omega
      | succ m =>
        obtain ⟨sp, h1, h2⟩ := ih r.2 rs hrs k p t (by simpa using ht) hstart hend m u
          (by omega) (by simpa using hu)
          (fun l v hl1 hl2 hv => hno (l + 1) v (by omega) (by omega) (by simpa using hv))
        exact ⟨sp, by simpa using h1, fun h => h2 (by omega)⟩

/-- C1, amended. Highlighting a document top-down returns one result per line,
and for every line `k` that contains a `/*` at an offset `p` with no `*/`
starting at offset `p - 1` or later: line `k` leaves block state 1, and every
following line `m`, as long as no line after `k` up to and including `m`
contains `*/`, has all its characters in the comment format and leaves block
state 1. -/
theorem highlightDocument_propagation (lines : List QString) :
    ∃ results, highlightDocument lines = some results ∧ results.length = lines.length ∧
      ∀ (k p : Nat) (t : QString), lines[k]? = some t → commentStartAt t p →
        (∀ j, p ≤ j + 1 → ¬ commentEndAt t j) →
        ∀ (m : Nat) (u : QString), k ≤ m → lines[m]? = some u →
          (∀ l v, k < l → l ≤ m → lines[l]? = some v → ∀ j, ¬ commentEndAt v j) →
          ∃ spans, results[m]? = some (spans, 1) ∧
            (k < m → formatsOf u spans = List.replicate u.length multiLineCommentFormat) := by
  obtain ⟨results, hres, hlen⟩ := highlightBlocks_returns lines (-1)
  exact ⟨results, hres, hlen, highlightBlocks_propagation lines (-1) results hres⟩

set_option maxRecDepth 100000 in
/-- C1 as stated fails. Line 0 of the document `/* a */*`, `x` contains a `/*`
at offset 6 and no `*/` at offset 6 or later (its only `*/` is at offset 5 and
shares the slash), and line 1 contains no `*/`; yet line 0 leaves block state 0
and the character of line 1 is plain. -/
theorem highlightDocument_shared_slash :
    commentStartAt "/* a */*".toList 6 ∧
    NoneAtOrAfter (commentEndAt "/* a */*".toList) 6 ∧
    (∀ j, ¬ commentEndAt "x".toList j) ∧
    highlightDocument ["/* a */*".toList, "x".toList] =
      some [([⟨0, 7, multiLineCommentFormat⟩], 0), ([], 0)] ∧
    formatsOf "x".toList [] = [plainFormat] :=
  ⟨by decide, (indexOf_pair_none (by decide)).mp (by decide),
    no_commentEnd_of_indexOf (by decide), by decide, by decide⟩

set_option maxRecDepth 100000 in
/-- Scenario B: `/* start`, `still comment`, `end */ int z;`. -/
theorem highlightDocument_scenario_B :
    highlightDocument ["/* start".toList, "still comment".toList, "end */ int z;".toList] =
      some [([⟨0, 8, multiLineCommentFormat⟩], 1),
        ([⟨0, 13, multiLineCommentFormat⟩], 1),
        ([⟨7, 3, keywordFormat⟩, ⟨0, 6, multiLineCommentFormat⟩], 0)] := by
  decide

set_option maxRecDepth 100000 in
/-- C1, amended, at scenario B: line 0 opens a comment at offset 0, and line 1,
which contains no `*/`, is comment throughout and leaves block state 1. -/
theorem highlightDocument_propagation_witness :
    ∃ results,
      highlightDocument ["/* start".toList, "still comment".toList, "end */ int z;".toList] =
        some results ∧
      ∃ spans, results[1]? = some (spans, 1) ∧
        formatsOf "still comment".toList spans =
          List.replicate "still comment".toList.length multiLineCommentFormat := by
  obtain ⟨results, hres, -, hprop⟩ :=
    highlightDocument_propagation ["/* start".toList, "still comment".toList, "end */ int z;".toList]
  obtain ⟨spans, h1, h2⟩ := hprop 0 0 "/* start".toList rfl (by decide)
    (fun j _ => no_commentEnd_of_indexOf (by decide) j) 1 "still comment".toList
    (by decide) rfl
    (fun l v h1 h2 hv => by
      have hl : l = 1 := by omega
      subst hl
      have hv2 : v = "still comment".toList := by simpa using hv.symm
      subst hv2
      exact no_commentEnd_of_indexOf (by decide))
  exact ⟨results, hres, spans, h1, h2 (by decide)⟩

/-! ## Layers of the final format -/

/-- Among the rule spans of a list of rules, replayed in order, the format of
an offset is that of the last rule with a match covering it. -/
theorem applySpans_last_rule (text : QString) (i : Nat) :
    ∀ (rules : List HighlightingRule) (buf : List QTextCharFormat) (k : Nat)
      (rule : HighlightingRule), i < buf.length → rules[k]? = some rule →
      (∃ m ∈ ruleSpans text rule, m.covers i) →
      (∀ k2 rule2, k < k2 → rules[k2]? = some rule2 →
        ¬ ∃ m ∈ ruleSpans text rule2, m.covers i) →
      (applySpans buf ((rules.map (ruleSpans text)).flatten))[i]? = some rule.format := by
  intro rules
  induction rules with
  | nil =>
    intro buf k rule _ hk
    cases hk
  | cons r rs ih =>
    intro buf k rule hi hk hc hlast
    rw [List.map_cons, List.flatten_cons, applySpans_append]
    cases k with
    | zero =>
      have hr : r = rule := by simpa using hk
      subst hr
      rw [applySpans_not_covered]
      · exact applySpans_covered _ r.format i buf hi
          (fun sp hsp => by
            obtain ⟨m, -, rfl⟩ := List.mem_map.mp hsp
            rfl) hc
      · intro sp hsp hcov
        obtain ⟨l, hl, hsp2⟩ := List.mem_flatten.mp hsp
        obtain ⟨rule2, hrule2, rfl⟩ := List.mem_map.mp hl
        obtain ⟨k2, hk2⟩ := List.mem_iff_getElem?.mp hrule2
        exact hlast (k2 + 1) rule2 (by omega) (by simpa using hk2) ⟨sp, hsp2, hcov⟩
    | succ k =>
      exact ih _ k rule (by rw [length_applySpans]; exact hi) (by simpa using hk) hc
        (fun k2 rule2 hk2 hr2 => hlast (k2 + 1) rule2 (by omega) (by simpa using hr2))

set_option maxRecDepth 100000 in
/-- C5. The final format of every offset `i` of a line: the block-comment
format when a span formatted by the comment loop covers `i`; otherwise the
format of the last rule of `highlightingRules` that has a match covering `i`;
otherwise plain.  The rules are, in order, the keyword rules, then the
type-name, single-line comment, string, call-site and number rules.  So the
`if` of `if(x)` ends up call-site and the digits of `// 42` end up number. -/
theorem highlightBlock_layers :
    (∀ (text : QString) (previous : Int),
      ∃ cspans state, commentPass text previous = some (cspans, state) ∧
        highlightBlock text previous = some (rulePass text ++ cspans, state) ∧
        ∀ i, i < text.length →
          ((∃ c ∈ cspans, c.covers i) →
            (formatsOf text (rulePass text ++ cspans))[i]? = some multiLineCommentFormat) ∧
          ((¬ ∃ c ∈ cspans, c.covers i) →
            (∀ (k : Nat) (rule : HighlightingRule), highlightingRules[k]? = some rule →
              (∃ m ∈ ruleSpans text rule, m.covers i) →
              (∀ (k2 : Nat) (rule2 : HighlightingRule), k < k2 →
                highlightingRules[k2]? = some rule2 →
                ¬ ∃ m ∈ ruleSpans text rule2, m.covers i) →
              (formatsOf text (rulePass text ++ cspans))[i]? = some rule.format) ∧
            ((∀ rule ∈ highlightingRules, ¬ ∃ m ∈ ruleSpans text rule, m.covers i) →
              (formatsOf text (rulePass text ++ cspans))[i]? = some plainFormat))) ∧
    highlightingRules.map (fun r => r.format) =
      List.replicate 51 keywordFormat ++
        [classFormat, singleLineCommentFormat, quotationFormat, functionFormat, numberFormat] ∧
    (highlightBlock "if(x)".toList 0 =
        some ([⟨0, 2, keywordFormat⟩, ⟨0, 2, functionFormat⟩], 0) ∧
      formatsOf "if(x)".toList [⟨0, 2, keywordFormat⟩, ⟨0, 2, functionFormat⟩] =
        [functionFormat, functionFormat, plainFormat, plainFormat, plainFormat]) ∧
    (highlightBlock "// 42".toList 0 =
        some ([⟨0, 5, singleLineCommentFormat⟩, ⟨3, 2, numberFormat⟩], 0) ∧
      formatsOf "// 42".toList [⟨0, 5, singleLineCommentFormat⟩, ⟨3, 2, numberFormat⟩] =
        [singleLineCommentFormat, singleLineCommentFormat, singleLineCommentFormat,
          numberFormat, numberFormat]) := by
  refine ⟨?_, by decide, ?_, ?_⟩
  · intro text previous
    have hpass : ∃ (spans : List (Nat × Nat)) (state : Int),
        commentPass text previous = some (spans.map commentSpan, state) := by
      by_cases h : previous = 1
      · subst h
        obtain ⟨spans, open_, -, hp⟩ := commentPass_inside text
        exact ⟨spans, _, hp⟩
      · obtain ⟨spans, open_, -, hp⟩ := commentPass_outside text previous h
        exact ⟨spans, _, hp⟩
    obtain ⟨spans, state, hp⟩ := hpass
    refine ⟨spans.map commentSpan, state, hp, highlightBlock_of_commentPass hp, ?_⟩
    intro i hi
    constructor
    · intro hc
      exact formatsOf_append_covered text _ _ multiLineCommentFormat i hi
        (commentSpan_format spans) hc
    · intro hnc
      have hrule : (formatsOf text (rulePass text ++ spans.map commentSpan))[i]? =
          (formatsOf text (rulePass text))[i]? :=
        formatsOf_append_not_covered text _ _ i (fun sp hsp hcov => hnc ⟨sp, hsp, hcov⟩)
      rw [hrule]
      constructor
      · intro k rule hk hc hlast
        exact applySpans_last_rule text i highlightingRules _ k rule
          (by rw [List.length_replicate]; exact hi) hk hc hlast
      · intro hnone
        unfold formatsOf
        rw [applySpans_not_covered, List.getElem?_replicate, if_pos hi]
        intro sp hsp hcov
        obtain ⟨l, hl, hsp2⟩ := List.mem_flatten.mp hsp
        obtain ⟨rule, hrule2, rfl⟩ := List.mem_map.mp hl
        exact hnone rule hrule2 ⟨sp, hsp2, hcov⟩
  · exact ⟨by decide, by decide⟩
  · exact ⟨by decide, by decide⟩

/-! ## The greedy string rule -/

theorem backtrack_eq_none {k : Nat → Option Nat} {i lo : Nat} :
    ∀ n, (∀ c, lo ≤ c → c ≤ n → k (i + c) = none) → backtrack k i lo n = none := by
  intro n
  induction n with
  | zero =>
    intro h
    simp only [backtrack]
    split
    · exact h 0 (by omega) (Nat.le_refl _)
    · rfl
  | succ n ih =>
    intro h
    simp only [backtrack]
    split
    · rw [h (n + 1) (by omega) (Nat.le_refl _)]
      exact ih (fun c h1 h2 => h c h1 (by omega))
    · rfl

theorem backtrack_eq_some {k : Nat → Option Nat} {i lo c e : Nat} (hlo : lo ≤ c)
    (hk : k (i + c) = some e) :
    ∀ n, c ≤ n → (∀ d, c < d → d ≤ n → k (i + d) = none) → backtrack k i lo n = some e := by
  intro n
  induction n with
  | zero =>
    intro hc _
    have hc0 : c = 0 := by omega
    subst hc0
    simp only [backtrack]
    rw [if_pos (by omega)]
    exact hk
  | succ n ih =>
    intro hc hlater
    simp only [backtrack]
    rw [if_pos (by omega)]
    by_cases hcn : c = n + 1
    · subst hcn
      rw [hk]
    · rw [hlater (n + 1) (by omega) (Nat.le_refl _)]
      exact ih (by omega) (fun d h1 h2 => hlater d h1 (by omega))

theorem runLength_notNewline {text : QString} (h : newline ∉ text) (i : Nat) :
    runLength notNewline text i = text.length - i := by
  unfold runLength
  have hall : (text.drop i).takeWhile notNewline = text.drop i := by
    rw [List.takeWhile_eq_self_iff]
    intro c hc
    have hmem : c ∈ text := List.mem_of_mem_drop hc
    simp only [notNewline, bne_iff_ne, ne_eq]
    rintro rfl
    exact h hmem
  rw [hall, List.length_drop]

theorem matchAt_quote {text : QString} {j : Nat} (h : quoteAt text j) :
    matchAt text [Item.lit dquote] j = some (j + 1) := by
  unfold quoteAt at h
  simp [matchAt, h]

theorem matchAt_not_quote {text : QString} {j : Nat} (h : ¬ quoteAt text j) :
    matchAt text [Item.lit dquote] j = none := by
  unfold quoteAt at h
  simp [matchAt, h]

theorem matchAt_quotation_no_quote {text : QString} {j : Nat} (h : ¬ quoteAt text j) :
    matchAt text quotationRule.pattern j = none := by
  unfold quoteAt at h
  simp [quotationRule, matchAt, h]

/-- At a quote with no quote after it the pattern fails. -/
theorem matchAt_quotation_last {text : QString} {j : Nat}
    (hlast : ∀ d, j < d → ¬ quoteAt text d) :
    matchAt text quotationRule.pattern j = none := by
  by_cases h : quoteAt text j
  · have hq : text[j]? = some dquote := h
    simp only [quotationRule, matchAt, hq, if_true]
    exact backtrack_eq_none _ (fun c _ _ => matchAt_not_quote (hlast _ (by omega)))
  · exact matchAt_quotation_no_quote h

/-- At a quote the pattern runs to the last quote of the line. -/
theorem matchAt_quotation_first {text : QString} {f l : Nat} (hnl : newline ∉ text)
    (hf : quoteAt text f) (hfl : f < l) (hl : LastWith (quoteAt text) l) :
    matchAt text quotationRule.pattern f = some (l + 1) := by
  have hq : text[f]? = some dquote := hf
  have hlen : l < text.length := by
    have := hl.1
    unfold quoteAt at this
    rw [List.getElem?_eq_some_iff] at this
    exact this.1
  simp only [quotationRule, matchAt, hq, if_true]
  rw [runLength_notNewline hnl]
  refine backtrack_eq_some (c := l - (f + 1)) (Nat.zero_le _) ?_ _ (by omega) ?_
  · rw [show f + 1 + (l - (f + 1)) = l by omega]
    exact matchAt_quote hl.1
  · intro d hd _
    exact matchAt_not_quote (hl.2 _ (by omega))

theorem globalMatch_quotation_pair {text : QString} {f l : Nat} (hnl : newline ∉ text)
    (hf : FirstAtOrAfter (quoteAt text) 0 f) (hfl : f < l) (hl : LastWith (quoteAt text) l) :
    globalMatch quotationRule.pattern text = [(f, l + 1 - f)] := by
  have hlen : l < text.length := by
    have := hl.1
    unfold quoteAt at this
    rw [List.getElem?_eq_some_iff] at this
    exact this.1
  have h1 : regexMatch quotationRule.pattern text 0 = some (f, l + 1) := by
    unfold regexMatch
    rw [if_pos (Nat.zero_le _), scan_eq_some]
    exact ⟨Nat.zero_le _, by omega, matchAt_quotation_first hnl hf.2.1 hfl hl,
      fun j h1 h2 => matchAt_quotation_no_quote (hf.2.2 j h1 h2)⟩
  have h2 : regexMatch quotationRule.pattern text (l + 1) = none := by
    unfold regexMatch
    rw [if_pos (by omega), scan_eq_none]
    intro j hj _
    exact matchAt_quotation_no_quote (hl.2 j (by omega))
  unfold globalMatch
  obtain ⟨n, hn⟩ : ∃ n, text.length = n + 1 := ⟨text.length - 1, by omega⟩
  rw [hn]
  simp only [globalMatchFrom, h1]
  rw [if_neg (by omega), h2]

theorem globalMatch_quotation_single {text : QString}
    (h : ∀ a b, a < b → quoteAt text a → ¬ quoteAt text b) :
    globalMatch quotationRule.pattern text = [] := by
  have h1 : regexMatch quotationRule.pattern text 0 = none := by
    unfold regexMatch
    rw [if_pos (Nat.zero_le _), scan_eq_none]
    intro j _ _
    by_cases hq : quoteAt text j
    · exact matchAt_quotation_last (fun d hd => h j d hd hq)
    · exact matchAt_quotation_no_quote hq
  unfold globalMatch
  simp only [globalMatchFrom, h1]

theorem quoteAt_of_mem {text : QString} (h : dquote ∈ text) : ∃ j, quoteAt text j := by
  obtain ⟨j, hj⟩ := List.mem_iff_getElem?.mp h
  exact ⟨j, hj⟩

theorem mem_of_quoteAt {text : QString} {j : Nat} (h : quoteAt text j) : dquote ∈ text :=
  List.mem_iff_getElem?.mpr ⟨j, h⟩

/-- Two or more quotes, counted, are two quotes at different offsets. -/
theorem two_le_count_iff (text : QString) :
    2 ≤ text.count dquote ↔ ∃ a b, a < b ∧ quoteAt text a ∧ quoteAt text b := by
  induction text with
  | nil =>
    constructor
    · intro h
      simp at h
    · rintro ⟨a, b, -, ha, -⟩
      cases ha
  | cons c cs ih =>
    rw [List.count_cons]
    constructor
    · intro h
      by_cases h2 : 2 ≤ cs.count dquote
      · obtain ⟨a, b, hab, ha, hb⟩ := ih.mp h2
        exact ⟨a + 1, b + 1, by omega, by simpa [quoteAt] using ha, by simpa [quoteAt] using hb⟩
      · have hc : c = dquote := by
          by_contra hne
          have : (c == dquote) = false := by simpa using hne
          rw [this] at h
          simp at h
          omega
        have hpos : 0 < cs.count dquote := by
          split at h <;> omega
        obtain ⟨b, hb⟩ := quoteAt_of_mem (List.count_pos_iff.mp hpos)
        exact ⟨0, b + 1, by omega, by simp [quoteAt, hc], by simpa [quoteAt] using hb⟩
    · rintro ⟨a, b, hab, ha, hb⟩
      cases b with
      | zero => omega
      | succ b =>
        have hb2 : quoteAt cs b := by simpa [quoteAt] using hb
        have hpos : 0 < cs.count dquote := List.count_pos_iff.mpr (mem_of_quoteAt hb2)
        cases a with
        | zero =>
          have hc : c = dquote := by simpa [quoteAt] using ha
          have : (c == dquote) = true := by simpa using hc
          rw [this, if_pos rfl]
          omega
        | succ a =>
          have ha2 : quoteAt cs a := by simpa [quoteAt] using ha
          have h2 : 2 ≤ cs.count dquote := ih.mpr ⟨a, b, Nat.lt_of_succ_lt_succ hab, ha2, hb2⟩
          exact Nat.le_trans h2 (Nat.le_add_right _ _)

theorem exists_first {P : Nat → Prop} :
    ∀ n, P n → ∃ f, FirstAtOrAfter P 0 f ∧ f ≤ n := by
  intro n
  induction n using Nat.strong_induction_on with
  | _ n ih =>
    intro hn
    by_cases h : ∃ j, j < n ∧ P j
    · obtain ⟨j, hj, hpj⟩ := h
      obtain ⟨f, hf, hfj⟩ := ih j hj hpj
      exact ⟨f, hf, by omega⟩
    · exact ⟨n, ⟨Nat.zero_le _, hn, fun j _ hj hpj => h ⟨j, hj, hpj⟩⟩, Nat.le_refl _⟩

theorem exists_last {P : Nat → Prop} (bound : Nat) (hb : ∀ j, P j → j < bound) :
    ∀ d n, n + d = bound → P n → ∃ l, LastWith P l ∧ n ≤ l := by
  intro d
  induction d using Nat.strong_induction_on with
  | _ d ih =>
    intro n hnd hn
    by_cases h : ∃ j, n < j ∧ P j
    · obtain ⟨j, hj, hpj⟩ := h
      have hjb := hb j hpj
      obtain ⟨l, hl, hjl⟩ := ih (bound - j) (by omega) j (by omega) hpj
      exact ⟨l, hl, by omega⟩
    · exact ⟨n, ⟨hn, fun j hj hpj => h ⟨j, hj, hpj⟩⟩, Nat.le_refl _⟩

set_option maxRecDepth 100000 in
/-- C6. On a line (a text without line feed) with two or more double quotes the
string rule makes exactly one `setFormat` call, from the first quote through
the last quote inclusive; on a text with fewer than two double quotes it makes
none.  So `"a" + "b"` is one span of nine characters, and a quote after a
backslash counts as a quote. -/
theorem quotationRule_greedy :
    (∀ text : QString,
      (newline ∉ text → 2 ≤ text.count dquote →
        ∃ f l, f < l ∧ FirstAtOrAfter (quoteAt text) 0 f ∧ LastWith (quoteAt text) l ∧
          ruleSpans text quotationRule = [⟨f, l + 1 - f, quotationFormat⟩]) ∧
      (text.count dquote < 2 → ruleSpans text quotationRule = [])) ∧
    ruleSpans twoLiterals quotationRule = [⟨0, 9, quotationFormat⟩] ∧
    ruleSpans escapedQuote quotationRule = [⟨2, 4, quotationFormat⟩] := by
  refine ⟨?_, by decide, by decide⟩
  intro text
  constructor
  · intro hnl hcount
    obtain ⟨a, b, hab, ha, hb⟩ := (two_le_count_iff text).mp hcount
    obtain ⟨f, hf, hfa⟩ := exists_first a ha
    have hbound : ∀ j, quoteAt text j → j < text.length := by
      intro j hj
      unfold quoteAt at hj
      rw [List.getElem?_eq_some_iff] at hj
      exact hj.1
    obtain ⟨l, hl, hbl⟩ := exists_last text.length hbound (text.length - b) b
      (by have := hbound b hb; omega) hb
    have hfl : f < l := by omega
    refine ⟨f, l, hfl, hf, hl, ?_⟩
    unfold ruleSpans
    rw [globalMatch_quotation_pair hnl hf hfl hl]
    rfl
  · intro hcount
    unfold ruleSpans
    rw [globalMatch_quotation_single]
    · rfl
    · intro a b hab ha hb
      have := (two_le_count_iff text).mpr ⟨a, b, hab, ha, hb⟩
      omega

/-- C6 at the line `"a" + "b"`. -/
theorem quotationRule_greedy_witness :
    newline ∉ twoLiterals ∧ 2 ≤ twoLiterals.count dquote ∧
    ∃ f l, f < l ∧ FirstAtOrAfter (quoteAt twoLiterals) 0 f ∧
      LastWith (quoteAt twoLiterals) l ∧
      ruleSpans twoLiterals quotationRule = [⟨f, l + 1 - f, quotationFormat⟩] :=
  ⟨by decide, by decide, (quotationRule_greedy.1 twoLiterals).1 (by decide) (by decide)⟩

/-! ## Width of the gutter -/

theorem digitsLoop_digits :
    ∀ (fuel m : Nat) (digits : Int), 1 ≤ m → m ≤ fuel →
      digitsLoop fuel (m : Int) digits =
        some (digits + ((Nat.digits 10 m).length : Int) - 1) := by
  intro fuel
  induction fuel with
  | zero =>
    intro m digits h1 h2
    omega
  | succ fuel ih =>
    intro m digits h1 h2
    simp only [digitsLoop]
    by_cases h10 : (m : Int) ≥ 10
    · rw [if_pos h10]
      have hm10 : 10 ≤ m := by omega
      have hdiv : Int.tdiv (m : Int) 10 = ((m / 10 : Nat) : Int) := by
        rw [Int.tdiv_eq_ediv (by omega) (by omega), Int.natCast_div]
        rfl
      rw [hdiv, ih (m / 10) (digits + 1) (by omega) (by omega),
        Nat.digits_def' (by omega : 1 < 10) (by omega : 0 < m)]
      simp only [List.length_cons, Nat.cast_add, Nat.cast_one]
      congr 1
      ring
    · rw [if_neg h10, Nat.digits_of_lt 10 m (by omega) (by omega)]
      simp

theorem lineNumberAreaWidth_eq (blockCount advance : Int) :
    lineNumberAreaWidth blockCount advance =
      some (wrapInt32 (15 + wrapInt32
        (advance * ((Nat.digits 10 (Max.max 1 blockCount).toNat).length : Int)))) := by
  have hmax : (1 : Int) ≤ Max.max 1 blockCount := le_max_left _ _
  have hcast : (((Max.max 1 blockCount).toNat : Nat) : Int) = Max.max 1 blockCount :=
    Int.toNat_of_nonneg (by omega)
  have hloop := digitsLoop_digits (Max.max 1 blockCount).toNat (Max.max 1 blockCount).toNat 1
    (by omega) (Nat.le_refl _)
  rw [hcast] at hloop
  simp only [lineNumberAreaWidth, hloop]
  congr 4
  ring

theorem wrapInt32_of_range {x : Int} (hlo : -2147483648 ≤ x) (hhi : x < 2147483648) :
    wrapInt32 x = x := by
  unfold wrapInt32
  omega

/-- Where `15 + a * d` fits, no wrapping takes place. -/
theorem lineNumberAreaWidth_exact (n a : Int) (ha : 0 ≤ a)
    (hfit : 15 + a * ((Nat.digits 10 (Max.max 1 n).toNat).length : Int) < 2147483648) :
    lineNumberAreaWidth n a =
      some (15 + a * ((Nat.digits 10 (Max.max 1 n).toNat).length : Int)) := by
  have hnonneg : 0 ≤ a * ((Nat.digits 10 (Max.max 1 n).toNat).length : Int) :=
    mul_nonneg ha (Int.ofNat_nonneg _)
  have hinner : wrapInt32 (a * ((Nat.digits 10 (Max.max 1 n).toNat).length : Int)) =
      a * ((Nat.digits 10 (Max.max 1 n).toNat).length : Int) :=
    wrapInt32_of_range (by omega) (by omega)
  rw [lineNumberAreaWidth_eq, hinner, wrapInt32_of_range (by omega) (by omega)]

/-- An `int` has at most ten decimal digits. -/
theorem digits_length_le_ten (n : Int) (hn : n < 2147483648) :
    (Nat.digits 10 (Max.max 1 n).toNat).length ≤ 10 := by
  have hle : (Max.max 1 n).toNat ≤ 2147483647 := by
    have : Max.max 1 n ≤ 2147483647 := max_le (by omega) (by omega)
    omega
  have h := Nat.le_digits_len_le 10 _ _ hle
  have hten : (Nat.digits 10 2147483647).length = 10 := by norm_num
  omega

theorem digits_length_pos (n : Int) :
    1 ≤ (Nat.digits 10 (Max.max 1 n).toNat).length := by
  have h1 : (1 : Nat) ≤ (Max.max 1 n).toNat := by
    have : (1 : Int) ≤ Max.max 1 n := le_max_left _ _
    omega
  have h := Nat.le_digits_len_le 10 _ _ h1
  have hone : (Nat.digits 10 1).length = 1 := by norm_num
  omega

/-- C7 as stated fails for a large advance: with `a = 2^30` the sum
`15 + a * 2` for 10 lines leaves the range of `int`, the function returns
-2147483633 where the claim's formula gives 2147483663, and the width for 10
lines is below the width for 9 lines. -/
theorem lineNumberAreaWidth_overflow :
    (0 : Int) ≤ 1073741824 ∧
    lineNumberAreaWidth 9 1073741824 = some 1073741839 ∧
    lineNumberAreaWidth 10 1073741824 = some (-2147483633) ∧
    (15 + 1073741824 * ((Nat.digits 10 (Max.max 1 (10 : Int)).toNat).length : Int) : Int) =
      2147483663 := by
  refine ⟨by decide, by decide, by decide, ?_⟩
  have hten : (Max.max 1 (10 : Int)).toNat = 10 := by decide
  rw [hten]
  norm_num

/-- C7, amended. For a non-negative advance `a` and a block count `n` for
which `15 + a * d` fits in an `int`, `d` being the number of decimal digits of
`max(1, n)`: `lineNumberAreaWidth` returns `15 + a * d`.  On that range it is
non-decreasing in `n`, and it is `15 + a` for every `n ≤ 9`, so for `n` in
`[1, 9]` and for `n ≤ 0`.  The sum fits for every `int` block count when
`a ≤ 214748363`. -/
theorem lineNumberAreaWidth_digits (a : Int) (ha : 0 ≤ a) :
    (∀ n : Int, 15 + a * ((Nat.digits 10 (Max.max 1 n).toNat).length : Int) < 2147483648 →
      lineNumberAreaWidth n a =
        some (15 + a * ((Nat.digits 10 (Max.max 1 n).toNat).length : Int))) ∧
    (∀ n m : Int, n ≤ m →
      15 + a * ((Nat.digits 10 (Max.max 1 m).toNat).length : Int) < 2147483648 →
      ∃ w v, lineNumberAreaWidth n a = some w ∧ lineNumberAreaWidth m a = some v ∧ w ≤ v) ∧
    (∀ n : Int, n ≤ 9 → 15 + a < 2147483648 → lineNumberAreaWidth n a = some (15 + a)) ∧
    (a ≤ 214748363 → ∀ n : Int, n < 2147483648 →
      15 + a * ((Nat.digits 10 (Max.max 1 n).toNat).length : Int) < 2147483648) := by
  refine ⟨fun n hfit => lineNumberAreaWidth_exact n a ha hfit, ?_, ?_, ?_⟩
  · intro n m hnm hfit
    have hle : (Max.max 1 n).toNat ≤ (Max.max 1 m).toNat :=
      Int.toNat_le_toNat (max_le_max (le_refl _) hnm)
    have hlen := Nat.le_digits_len_le 10 _ _ hle
    have hcast : ((Nat.digits 10 (Max.max 1 n).toNat).length : Int) ≤
        ((Nat.digits 10 (Max.max 1 m).toNat).length : Int) := by exact_mod_cast hlen
    have hmul := mul_le_mul_of_nonneg_left hcast ha
    exact ⟨_, _, lineNumberAreaWidth_exact n a ha (by omega),
      lineNumberAreaWidth_exact m a ha hfit, by omega⟩
  · intro n hn hfit
    have h1 : 1 ≤ (Max.max 1 n).toNat := by
      have : (1 : Int) ≤ Max.max 1 n := le_max_left _ _
      omega
    have h9 : (Max.max 1 n).toNat < 10 := by
      have : Max.max 1 n ≤ 9 := max_le (by omega) hn
      omega
    have hd : (Nat.digits 10 (Max.max 1 n).toNat).length = 1 := by
      rw [Nat.digits_of_lt 10 _ (by omega) h9]
      rfl
    have := lineNumberAreaWidth_exact n a ha (by rw [hd]; simpa using hfit)
    rw [this, hd]
    simp
  · intro hbound n hn
    have hten := digits_length_le_ten n hn
    have hcast : ((Nat.digits 10 (Max.max 1 n).toNat).length : Int) ≤ 10 := by
      exact_mod_cast hten
    have hmul := mul_le_mul_of_nonneg_left hcast ha
    omega

/-- C7, amended, at advance 7: one digit for 9 lines, two for 10, three for
100, and the single-digit width for a block count below 1. -/
theorem lineNumberAreaWidth_digits_witness :
    (0 : Int) ≤ 7 ∧ lineNumberAreaWidth 9 7 = some 22 ∧
    lineNumberAreaWidth 10 7 = some 29 ∧ lineNumberAreaWidth 100 7 = some 36 ∧
    lineNumberAreaWidth (-3) 7 = some (15 + 7) :=
  ⟨by decide, by decide, by decide, by decide,
    (lineNumberAreaWidth_digits 7 (by decide)).2.2.1 (-3) (by decide) (by decide)⟩

/-! ## Labels of the gutter -/

theorem paintLoop_mem (rectTop rectBottom caretBlock : Int) :
    ∀ (blocks : List QTextBlock) (blockNumber top bottom : Int) (lab : GutterLabel),
      lab ∈ paintLoop rectTop rectBottom caretBlock blocks blockNumber top bottom →
      lab.number = toString (lab.blockNumber + 1) ∧
      lab.emphasized = decide (caretBlock = lab.blockNumber) ∧
      ∃ (j : Nat) (block : QTextBlock), blocks[j]? = some block ∧ block.isVisible = true ∧
        lab.blockNumber = blockNumber + j := by
  intro blocks
  induction blocks with
  | nil =>
    intro blockNumber top bottom lab h
    cases h
  | cons block rest ih =>
    intro blockNumber top bottom lab h
    simp only [paintLoop] at h
    split at h
    · rcases List.mem_append.mp h with h1 | h2
      · split at h1
        · rw [List.mem_singleton.mp h1]
          exact ⟨rfl, rfl, 0, block, List.getElem?_cons_zero, ‹_ ∧ _›.1, by simp⟩
        · cases h1
      · obtain ⟨hn, he, j, b, hj, hv, hb⟩ := ih _ _ _ lab h2
        exact ⟨hn, he, j + 1, b, by simpa using hj, hv, by rw [hb]; push_cast; ring⟩
    · cases h

theorem paintLoop_pairwise (rectTop rectBottom caretBlock : Int) :
    ∀ (blocks : List QTextBlock) (blockNumber top bottom : Int),
      (paintLoop rectTop rectBottom caretBlock blocks blockNumber top bottom).Pairwise
        (fun x y => x.blockNumber < y.blockNumber) := by
  intro blocks
  induction blocks with
  | nil =>
    intro blockNumber top bottom
    exact List.Pairwise.nil
  | cons block rest ih =>
    intro blockNumber top bottom
    simp only [paintLoop]
    split
    · rw [List.pairwise_append]
      refine ⟨?_, ih _ _ _, ?_⟩
      · split
        · exact List.pairwise_singleton _ _
        · exact List.Pairwise.nil
      · intro x hx y hy
        obtain ⟨-, -, j, b, -, -, hb⟩ := paintLoop_mem _ _ _ _ _ _ _ y hy
        split at hx
        · rw [List.mem_singleton.mp hx, hb]
          show blockNumber < blockNumber + 1 + (j : Int)
          omega
        · cases hx
    · exact List.Pairwise.nil

theorem blockTop_zero (blocks : List QTextBlock) (top : Int) : blockTop blocks top 0 = top := by
  simp [blockTop]

theorem blockTop_succ (block : QTextBlock) (rest : List QTextBlock) (top : Int) (i : Nat) :
    blockTop (block :: rest) top (i + 1) = blockTop rest (top + block.height) i := by
  simp only [blockTop, List.take_succ_cons, List.map_cons, List.sum_cons]
  ring

theorem drawn_zero_iff (block : QTextBlock) (rest : List QTextBlock)
    (top rectTop rectBottom : Int) :
    Drawn (block :: rest) top rectTop rectBottom 0 ↔
      top ≤ rectBottom ∧ block.isVisible = true ∧ top + block.height ≥ rectTop := by
  unfold Drawn
  constructor
  · rintro ⟨hreach, b, hb, hv, hbot⟩
    have hb2 : block = b := by simpa using hb
    subst hb2
    have h0 := hreach 0 (Nat.le_refl _)
    rw [blockTop_zero] at h0 hbot
    exact ⟨h0, hv, hbot⟩
  · rintro ⟨htop, hv, hbot⟩
    refine ⟨?_, block, List.getElem?_cons_zero, hv, ?_⟩
    · intro i hi
      have hi0 : i = 0 := by omega
      subst hi0
      rw [blockTop_zero]
      exact htop
    · rw [blockTop_zero]
      exact hbot

theorem drawn_succ_iff (block : QTextBlock) (rest : List QTextBlock)
    (top rectTop rectBottom : Int) (j : Nat) :
    Drawn (block :: rest) top rectTop rectBottom (j + 1) ↔
      top ≤ rectBottom ∧ Drawn rest (top + block.height) rectTop rectBottom j := by
  unfold Drawn
  constructor
  · rintro ⟨hreach, b, hb, hv, hbot⟩
    refine ⟨?_, ?_, b, by simpa using hb, hv, ?_⟩
    · have h0 := hreach 0 (Nat.zero_le _)
      rwa [blockTop_zero] at h0
    · intro i hi
      have := hreach (i + 1) (by omega)
      rwa [blockTop_succ] at this
    · rwa [blockTop_succ] at hbot
  · rintro ⟨htop, hreach, b, hb, hv, hbot⟩
    refine ⟨?_, b, by simpa using hb, hv, ?_⟩
    · intro i hi
      cases i with
      | zero =>
        rw [blockTop_zero]
        exact htop
      | succ i =>
        rw [blockTop_succ]
        exact hreach i (by omega)
    · rw [blockTop_succ]
      exact hbot

/-- The labels the paint loop draws are exactly those of the blocks that are
to get one. -/
theorem paintLoop_mem_iff (rectTop rectBottom caretBlock : Int) (lab : GutterLabel) :
    ∀ (blocks : List QTextBlock) (blockNumber top : Int),
      lab ∈ paintLoop rectTop rectBottom caretBlock blocks blockNumber top
          (top + nextHeight blocks) ↔
        ∃ j : Nat, lab = gutterLabel caretBlock (blockNumber + j) ∧
          Drawn blocks top rectTop rectBottom j := by
  intro blocks
  induction blocks with
  | nil =>
    intro blockNumber top
    simp only [paintLoop, List.not_mem_nil, false_iff, not_exists, not_and]
    rintro j - ⟨-, b, hb, -⟩
    cases hb
  | cons block rest ih =>
    intro blockNumber top
    have hnext : nextHeight (block :: rest) = block.height := rfl
    rw [hnext]
    simp only [paintLoop]
    by_cases htop : top ≤ rectBottom
    · rw [if_pos htop, List.mem_append, ih (blockNumber + 1) (top + block.height)]
      constructor
      · rintro (h1 | ⟨j, hlab, hd⟩)
        · by_cases hv : block.isVisible = true ∧ top + block.height ≥ rectTop
          · rw [if_pos hv, List.mem_singleton] at h1
            refine ⟨0, ?_, (drawn_zero_iff _ _ _ _ _).mpr ⟨htop, hv.1, hv.2⟩⟩
            rw [h1]
            simp [gutterLabel]
          · rw [if_neg hv] at h1
            cases h1
        · refine ⟨j + 1, ?_, (drawn_succ_iff _ _ _ _ _ _).mpr ⟨htop, hd⟩⟩
          rw [hlab]
          congr 1
          push_cast
          ring
      · rintro ⟨j, hlab, hd⟩
        cases j with
        | zero =>
          left
          obtain ⟨-, hv, hbot⟩ := (drawn_zero_iff _ _ _ _ _).mp hd
          rw [if_pos ⟨hv, hbot⟩, List.mem_singleton, hlab]
          simp [gutterLabel]
        | succ j =>
          right
          refine ⟨j, ?_, ((drawn_succ_iff _ _ _ _ _ _).mp hd).2⟩
          rw [hlab]
          congr 1
          push_cast
          ring
    · rw [if_neg htop]
      simp only [List.not_mem_nil, false_iff, not_exists, not_and]
      rintro j - ⟨hreach, -⟩
      have := hreach 0 (Nat.zero_le _)
      rw [blockTop_zero] at this
      exact htop this

/-- C8. In one run of the gutter paint loop: every label drawn carries the
decimal text of its block number plus one and belongs to a visible block of
the document, at the position its number says; the block numbers drawn are
strictly increasing; a label is emphasized exactly when its block number is
the caret's; the number of emphasized labels is one when the caret's block is
among the drawn ones and zero otherwise.  And the labels drawn are all those
due: the `j`-th block gets its label exactly when the loop reaches it, it is
visible and its bottom is not above the top of the event rectangle; so, when
that holds of the caret's block, the emphasized labels are the caret's label
and no other. -/
theorem lineNumberAreaPaintEvent_labels (blocks : List QTextBlock)
    (firstBlockNumber top rectTop rectBottom caretBlock : Int) :
    (∀ lab ∈ lineNumberAreaPaintEvent blocks firstBlockNumber top rectTop rectBottom caretBlock,
      lab.number = toString (lab.blockNumber + 1) ∧
      (lab.emphasized = true ↔ lab.blockNumber = caretBlock) ∧
      ∃ (j : Nat) (block : QTextBlock), blocks[j]? = some block ∧ block.isVisible = true ∧
        lab.blockNumber = firstBlockNumber + j) ∧
    (lineNumberAreaPaintEvent blocks firstBlockNumber top rectTop rectBottom
      caretBlock).Pairwise (fun x y => x.blockNumber < y.blockNumber) ∧
    ((lineNumberAreaPaintEvent blocks firstBlockNumber top rectTop rectBottom
      caretBlock).filter (fun lab => lab.emphasized)).length =
      (if caretBlock ∈ (lineNumberAreaPaintEvent blocks firstBlockNumber top rectTop rectBottom
        caretBlock).map (fun lab => lab.blockNumber) then 1 else 0) ∧
    (∀ j : Nat, gutterLabel caretBlock (firstBlockNumber + j) ∈
        lineNumberAreaPaintEvent blocks firstBlockNumber top rectTop rectBottom caretBlock ↔
      Drawn blocks top rectTop rectBottom j) ∧
    (∀ j : Nat, Drawn blocks top rectTop rectBottom j → caretBlock = firstBlockNumber + j →
      (lineNumberAreaPaintEvent blocks firstBlockNumber top rectTop rectBottom
        caretBlock).filter (fun lab => lab.emphasized) =
          [⟨caretBlock, toString (caretBlock + 1), true⟩]) := by
  have hmem := paintLoop_mem rectTop rectBottom caretBlock blocks firstBlockNumber top
    (top + nextHeight blocks)
  have hpair := paintLoop_pairwise rectTop rectBottom caretBlock blocks firstBlockNumber top
    (top + nextHeight blocks)
  have hemph : ∀ lab ∈ lineNumberAreaPaintEvent blocks firstBlockNumber top rectTop rectBottom
      caretBlock, (lab.emphasized = true ↔ lab.blockNumber = caretBlock) := by
    intro lab hlab
    rw [(hmem lab hlab).2.1, decide_eq_true_iff]
    exact eq_comm
  have hnodup : ((lineNumberAreaPaintEvent blocks firstBlockNumber top rectTop rectBottom
      caretBlock).map (fun lab => lab.blockNumber)).Nodup := by
    refine List.Pairwise.map _ ?_ hpair
    intro x y hxy
    exact ne_of_lt hxy
  have hcount : ((lineNumberAreaPaintEvent blocks firstBlockNumber top rectTop rectBottom
      caretBlock).filter (fun lab => lab.emphasized)).length =
      ((lineNumberAreaPaintEvent blocks firstBlockNumber top rectTop rectBottom
        caretBlock).map (fun lab => lab.blockNumber)).count caretBlock := by
    rw [← List.countP_eq_length_filter, List.count, List.countP_map]
    apply List.countP_congr
    intro lab hlab
    simp only [Function.comp_apply, beq_iff_eq]
    exact hemph lab hlab
  have hiff : ∀ j : Nat, gutterLabel caretBlock (firstBlockNumber + j) ∈
      lineNumberAreaPaintEvent blocks firstBlockNumber top rectTop rectBottom caretBlock ↔
      Drawn blocks top rectTop rectBottom j := by
    intro j
    unfold lineNumberAreaPaintEvent
    rw [paintLoop_mem_iff]
    constructor
    · rintro ⟨j2, hlab, hd⟩
      have hnum := congrArg GutterLabel.blockNumber hlab
      simp only [gutterLabel] at hnum
      have hj : j = j2 := by omega
      rw [hj]
      exact hd
    · intro hd
      exact ⟨j, rfl, hd⟩
  refine ⟨?_, hpair, ?_, hiff, ?_⟩
  · intro lab hlab
    obtain ⟨h1, -, h3⟩ := hmem lab hlab
    exact ⟨h1, hemph lab hlab, h3⟩
  · rw [hcount]
    split
    · exact List.count_eq_one_of_mem hnodup ‹_›
    · exact List.count_eq_zero_of_not_mem ‹_›
  · intro j hd hcaret
    have hin := (hiff j).mpr hd
    rw [← hcaret] at hin
    have hone : ((lineNumberAreaPaintEvent blocks firstBlockNumber top rectTop rectBottom
        caretBlock).filter (fun lab => lab.emphasized)).length = 1 := by
      rw [hcount]
      refine List.count_eq_one_of_mem hnodup ?_
      exact List.mem_map.mpr ⟨_, hin, rfl⟩
    obtain ⟨x, hx⟩ := List.length_eq_one.mp hone
    rw [hx]
    have hxmem : x ∈ (lineNumberAreaPaintEvent blocks firstBlockNumber top rectTop rectBottom
        caretBlock).filter (fun lab => lab.emphasized) := by
      rw [hx]
      exact List.mem_singleton_self _
    obtain ⟨hxin, hxe⟩ := List.mem_filter.mp hxmem
    have hxnum := (hmem x hxin).1
    have hxblock := (hemph x hxin).mp hxe
    obtain ⟨bn, num, em⟩ := x
    simp only at hxnum hxblock hxe
    subst hxblock
    subst hxnum
    subst hxe
    rfl

/-- Three visible blocks of height 10 in an event rectangle from 0 to 25, the
caret in block 1: the labels 1, 2, 3 with the second one emphasized; with the
caret in block 7 no label is emphasized. -/
theorem lineNumberAreaPaintEvent_example :
    lineNumberAreaPaintEvent [⟨true, 10⟩, ⟨true, 10⟩, ⟨true, 10⟩, ⟨true, 10⟩] 0 0 0 25 1 =
      [⟨0, "1", false⟩, ⟨1, "2", true⟩, ⟨2, "3", false⟩] ∧
    lineNumberAreaPaintEvent [⟨true, 10⟩, ⟨true, 10⟩, ⟨true, 10⟩, ⟨true, 10⟩] 0 0 0 25 7 =
      [⟨0, "1", false⟩, ⟨1, "2", false⟩, ⟨2, "3", false⟩] := by
  decide

/-! ## The scenarios of the specification -/

set_option maxRecDepth 100000 in
/-- C9. Scenario A, the lines `int x = 1;`, `// comment`, `int y;` highlighted
top-down: line 0 gets exactly a keyword span `[0, 3)` and a number span at
offset 8 of length 1; line 1 one comment span `[0, 10)`, the whole line; line 2
exactly a keyword span `[0, 3)`; all three block states are 0. -/
theorem highlightDocument_scenario_A :
    highlightDocument ["int x = 1;".toList, "// comment".toList, "int y;".toList] =
      some [([⟨0, 3, keywordFormat⟩, ⟨8, 1, numberFormat⟩], 0),
        ([⟨0, 10, singleLineCommentFormat⟩], 0),
        ([⟨0, 3, keywordFormat⟩], 0)] ∧
    formatsOf "int x = 1;".toList [⟨0, 3, keywordFormat⟩, ⟨8, 1, numberFormat⟩] =
      List.replicate 3 keywordFormat ++ List.replicate 5 plainFormat ++ [numberFormat] ++
        [plainFormat] ∧
    formatsOf "// comment".toList [⟨0, 10, singleLineCommentFormat⟩] =
      List.replicate "// comment".toList.length multiLineCommentFormat ∧
    formatsOf "int y;".toList [⟨0, 3, keywordFormat⟩] =
      List.replicate 3 keywordFormat ++ List.replicate 3 plainFormat := by
  decide

set_option maxRecDepth 100000 in
/-- C10. Scenario C, the lines `/* start`, `still comment */ int mid;`,
`end */ int z;` highlighted top-down: line 1 gets the comment span `[0, 16)`
and leaves block state 0; line 2 is therefore highlighted with previous block
state 0 and gets no comment span at all, only the keyword span `[7, 10)`, so
its first characters are plain and its `int` keyword, and it leaves state 0. -/
theorem highlightDocument_scenario_C :
    highlightDocument
        ["/* start".toList, "still comment */ int mid;".toList, "end */ int z;".toList] =
      some [([⟨0, 8, multiLineCommentFormat⟩], 1),
        ([⟨17, 3, keywordFormat⟩, ⟨0, 16, multiLineCommentFormat⟩], 0),
        ([⟨7, 3, keywordFormat⟩], 0)] ∧
    highlightBlock "end */ int z;".toList 0 = some ([⟨7, 3, keywordFormat⟩], 0) ∧
    commentPass "end */ int z;".toList 0 = some ([], 0) ∧
    formatsOf "end */ int z;".toList [⟨7, 3, keywordFormat⟩] =
      List.replicate 7 plainFormat ++ List.replicate 3 keywordFormat ++
        List.replicate 3 plainFormat := by
  decide

/-! ## Termination and bounds of the block-comment loop -/

theorem scanFrom_count {text : QString} {off : Nat} {spans : List (Nat × Nat)} {open_ : Bool}
    (hr : ScanFrom text off spans open_) : 2 * spans.length ≤ text.length - off := by
  induction hr with
  | done off hn => simp
  | unterminated off s hs hn =>
    have hb := litPairAt_bound hs.2.1
    have hle := hs.1
    simp only [List.length_singleton]
    omega
  | terminated off s e rest o hs he _ ih =>
    have hb := litPairAt_bound he.2.1
    have h1 := hs.1
    have h2 := he.1
    simp only [List.length_cons]
    omega

theorem scanFrom_bounds {text : QString} {off : Nat} {spans : List (Nat × Nat)} {open_ : Bool}
    (hr : ScanFrom text off spans open_) : ∀ p ∈ spans, p.1 + p.2 ≤ text.length := by
  induction hr with
  | done off hn =>
    intro p hp
    cases hp
  | unterminated off s hs hn =>
    intro p hp
    rw [List.mem_singleton.mp hp]
    have hb := litPairAt_bound hs.2.1
    show s + (text.length - s) ≤ text.length
    omega
  | terminated off s e rest o hs he _ ih =>
    intro p hp
    rcases List.mem_cons.mp hp with rfl | hp
    · have hb := litPairAt_bound he.2.1
      have h2 := he.1
      show s + (e + 2 - s) ≤ text.length
      omega
    · exact ih p hp

theorem scanFrom_pairwise {text : QString} {off : Nat} {spans : List (Nat × Nat)}
    {open_ : Bool} (hr : ScanFrom text off spans open_) :
    spans.Pairwise (fun a b => a.1 + a.2 ≤ b.1 ∧ a.1 < b.1) := by
  induction hr with
  | done off hn => exact List.Pairwise.nil
  | unterminated off s hs hn => exact List.pairwise_singleton _ _
  | terminated off s e rest o hs he hrest ih =>
    refine List.Pairwise.cons ?_ ih
    intro p hp
    have hge := (scanFrom_start_ge hrest p hp).1
    have h2 := he.1
    show s + (e + 2 - s) ≤ p.1 ∧ s < p.1
    omega

theorem runFrom_count {text : QString} {s : Nat} {spans : List (Nat × Nat)} {open_ : Bool}
    (hr : RunFrom text s spans open_) : spans.length ≤ (text.length - s) / 2 + 1 := by
  rcases hr with ⟨-, rfl, -⟩ | ⟨e, rest, he, hrest, rfl⟩
  · simp
  · have hc := scanFrom_count hrest
    have h2 := he.1
    simp only [List.length_cons]
    omega

theorem runFrom_bounds {text : QString} {s : Nat} {spans : List (Nat × Nat)} {open_ : Bool}
    (hs : s ≤ text.length) (hr : RunFrom text s spans open_) :
    ∀ p ∈ spans, p.1 + p.2 ≤ text.length := by
  rcases hr with ⟨-, rfl, -⟩ | ⟨e, rest, he, hrest, rfl⟩
  · intro p hp
    rw [List.mem_singleton.mp hp]
    show s + (text.length - s) ≤ text.length
    omega
  · intro p hp
    rcases List.mem_cons.mp hp with rfl | hp
    · have hb := litPairAt_bound he.2.1
      have h2 := he.1
      show s + (e + 2 - s) ≤ text.length
      omega
    · exact scanFrom_bounds hrest p hp

theorem runFrom_pairwise {text : QString} {s : Nat} {spans : List (Nat × Nat)} {open_ : Bool}
    (hr : RunFrom text s spans open_) :
    spans.Pairwise (fun a b => a.1 + a.2 ≤ b.1 ∧ a.1 < b.1) := by
  rcases hr with ⟨-, rfl, -⟩ | ⟨e, rest, he, hrest, rfl⟩
  · exact List.pairwise_singleton _ _
  · refine List.Pairwise.cons ?_ (scanFrom_pairwise hrest)
    intro p hp
    have hge := (scanFrom_start_ge hrest p hp).1
    have h2 := he.1
    show s + (e + 2 - s) ≤ p.1 ∧ s < p.1
    omega

/-- The loop makes one `setFormat` call per iteration, and the fuel counts
iterations: it returns exactly when the fuel covers the calls it makes. -/
theorem commentLoop_iterations (text : QString) :
    ∀ (fuel s : Nat) (state : Int) (spans : List StyledSpan) (final : Int),
      commentLoop text fuel s state = some (spans, final) →
      ∀ fuel2, commentLoop text fuel2 s state =
        if spans.length ≤ fuel2 then some (spans, final) else none := by
  intro fuel
  induction fuel with
  | zero =>
    intro s state spans final h
    simp [commentLoop] at h
  | succ fuel ih =>
    intro s state spans final h fuel2
    simp only [commentLoop] at h
    cases fuel2 with
    | zero =>
      have hpos : ¬ spans.length ≤ 0 := by
        split at h
        · cases h
          simp
        · split at h
          · cases h
          · cases h
            simp
      rw [if_neg hpos]
      rfl
    | succ fuel2 =>
      simp only [commentLoop]
      split at h
      · cases h
        simp
      · rename_i next hnext
        cases hrec : commentLoop text fuel next
            (match regexMatch commentEndExpression text s with
              | none => (text.length - s, (1 : Int))
              | some (endIndex, endOfMatch) =>
                (endIndex - s + (endOfMatch - endIndex), state)).2 with
        | none =>
          rw [hrec] at h
          cases h
        | some r =>
          obtain ⟨spans1, final1⟩ := r
          rw [hrec] at h
          cases h
          rw [ih _ _ _ _ hrec fuel2]
          by_cases hle : spans1.length ≤ fuel2
          · rw [if_pos hle, if_pos (by simpa using hle)]
          · rw [if_neg hle, if_neg (by simpa using hle)]

theorem commentSpan_pairwise {spans : List (Nat × Nat)}
    (h : spans.Pairwise (fun a b => a.1 + a.2 ≤ b.1 ∧ a.1 < b.1)) :
    (spans.map commentSpan).Pairwise
      (fun a b => a.start + a.length ≤ b.start ∧ a.start < b.start) :=
  List.Pairwise.map commentSpan (fun _ _ hab => hab) h

theorem commentSpan_bounds {spans : List (Nat × Nat)} {n : Nat}
    (h : ∀ p ∈ spans, p.1 + p.2 ≤ n) :
    ∀ sp ∈ spans.map commentSpan, sp.start + sp.length ≤ n := by
  intro sp hsp
  obtain ⟨p, hp, rfl⟩ := List.mem_map.mp hsp
  exact h p hp

/-- C14. For every line and previous block state the comment pass returns;
its loop runs once per span it formats, so it finishes exactly when given fuel
for that many iterations, and that number is at most `length / 2 + 1`; every
span lies within the text; and of two spans the earlier one ends at or before
the start of the later one, whose start is strictly larger. -/
theorem commentPass_terminates (text : QString) (previous : Int) :
    ∃ spans state, commentPass text previous = some (spans, state) ∧
      spans.length ≤ text.length / 2 + 1 ∧
      (∀ s, (if previous ≠ 1 then indexOf text commentStartExpression 0 else some 0) = some s →
        ∀ fuel, commentLoop text fuel s 0 =
          if spans.length ≤ fuel then some (spans, state) else none) ∧
      (∀ sp ∈ spans, sp.start + sp.length ≤ text.length) ∧
      spans.Pairwise (fun a b => a.start + a.length ≤ b.start ∧ a.start < b.start) := by
  have hloop : ∀ (spans : List StyledSpan) (state : Int),
      commentPass text previous = some (spans, state) →
      ∀ s, (if previous ≠ 1 then indexOf text commentStartExpression 0 else some 0) = some s →
        ∀ fuel, commentLoop text fuel s 0 =
          if spans.length ≤ fuel then some (spans, state) else none := by
    intro spans state hpass s hs fuel
    have hrun : commentLoop text (text.length + 1) s 0 = some (spans, state) := by
      simp only [commentPass, hs] at hpass
      exact hpass
    exact commentLoop_iterations text _ s 0 spans state hrun fuel
  by_cases h : previous = 1
  · subst h
    obtain ⟨spans, open_, hrun, hpass⟩ := commentPass_inside text
    refine ⟨_, _, hpass, ?_, hloop _ _ hpass, ?_, ?_⟩
    · rw [List.length_map]
      have := runFrom_count hrun
      simpa using this
    · exact commentSpan_bounds (runFrom_bounds (Nat.zero_le _) hrun)
    · exact commentSpan_pairwise (runFrom_pairwise hrun)
  · obtain ⟨spans, open_, hscan, hpass⟩ := commentPass_outside text previous h
    refine ⟨_, _, hpass, ?_, hloop _ _ hpass, ?_, ?_⟩
    · rw [List.length_map]
      have := scanFrom_count hscan
      omega
    · exact commentSpan_bounds (scanFrom_bounds hscan)
    · exact commentSpan_pairwise (scanFrom_pairwise hscan)

set_option maxRecDepth 100000 in
/-- Runs of the loop: one iteration on the empty line (the bound for length 0),
one on `*/` and two on `*//*`, all three after a line that ended inside a
comment, and two on `/**//**/`. -/
theorem commentPass_terminates_examples :
    commentPass [] 1 = some ([⟨0, 0, multiLineCommentFormat⟩], 1) ∧
    commentPass "*/".toList 1 = some ([⟨0, 2, multiLineCommentFormat⟩], 0) ∧
    commentPass "*//*".toList 1 =
      some ([⟨0, 2, multiLineCommentFormat⟩, ⟨2, 2, multiLineCommentFormat⟩], 1) ∧
    commentPass "/**//**/".toList 0 =
      some ([⟨0, 4, multiLineCommentFormat⟩, ⟨4, 4, multiLineCommentFormat⟩], 0) := by
  decide

/-! ## Comment delimiters in any lexical context -/

theorem highlightBlock_unterminated (text : QString) (previous : Int) (h : previous ≠ 1)
    (s : Nat) (hs : FirstAtOrAfter (commentStartAt text) 0 s)
    (hn : NoneAtOrAfter (commentEndAt text) s) :
    highlightBlock text previous =
      some (rulePass text ++ [⟨s, text.length - s, multiLineCommentFormat⟩], 1) := by
  obtain ⟨spans, open_, hscan, hpass⟩ := commentPass_outside text previous h
  obtain ⟨rfl, rfl⟩ := scanFrom_unique hscan (ScanFrom.unterminated 0 s hs hn)
  rw [highlightBlock_of_commentPass hpass]
  rfl

set_option maxRecDepth 100000 in
/-- C15. A line highlighted with a previous block state other than 1 whose
first `/*`, at offset `s`, has no `*/` at or after it: whatever the rule pass
matched around that `/*`, the comment loop formats `[s, length)` as comment and
the block state is 1, so a following line without `*/` is comment throughout
and leaves state 1 too.  In `// see /* here` the `/*` lies inside the match of
the single-line comment rule and in `x = "/*";` inside the match of the string
rule; both lines leave block state 1, and a line `int y;` after the first is
comment throughout. -/
theorem highlightBlock_delimiter_any_context :
    (∀ (text : QString) (previous : Int) (s : Nat), previous ≠ 1 →
      FirstAtOrAfter (commentStartAt text) 0 s → NoneAtOrAfter (commentEndAt text) s →
      highlightBlock text previous =
        some (rulePass text ++ [⟨s, text.length - s, multiLineCommentFormat⟩], 1) ∧
      (∀ i, s ≤ i → i < text.length →
        (formatsOf text (rulePass text ++
          [⟨s, text.length - s, multiLineCommentFormat⟩]))[i]? = some multiLineCommentFormat) ∧
      ∀ next : QString, (∀ j, ¬ commentEndAt next j) →
        highlightBlocks previous [text, next] =
          some [(rulePass text ++ [⟨s, text.length - s, multiLineCommentFormat⟩], 1),
            (rulePass next ++ [⟨0, next.length, multiLineCommentFormat⟩], 1)] ∧
        formatsOf next (rulePass next ++ [⟨0, next.length, multiLineCommentFormat⟩]) =
          List.replicate next.length multiLineCommentFormat) ∧
    (ruleSpans "// see /* here".toList singleLineCommentRule =
        [⟨0, 14, singleLineCommentFormat⟩] ∧
      commentStartAt "// see /* here".toList 7 ∧
      highlightDocument ["// see /* here".toList, "int y;".toList] =
        some [([⟨0, 14, singleLineCommentFormat⟩, ⟨7, 7, multiLineCommentFormat⟩], 1),
          ([⟨0, 3, keywordFormat⟩, ⟨0, 6, multiLineCommentFormat⟩], 1)] ∧
      formatsOf "int y;".toList [⟨0, 3, keywordFormat⟩, ⟨0, 6, multiLineCommentFormat⟩] =
        List.replicate 6 multiLineCommentFormat) ∧
    (ruleSpans quotedStart quotationRule = [⟨4, 4, quotationFormat⟩] ∧
      commentStartAt quotedStart 5 ∧
      highlightBlock quotedStart 0 =
        some ([⟨4, 4, quotationFormat⟩, ⟨5, 4, multiLineCommentFormat⟩], 1)) := by
  refine ⟨?_, ⟨by decide, by decide, by decide, by decide⟩, ⟨by decide, by decide, by decide⟩⟩
  intro text previous s h hs hn
  have hblock := highlightBlock_unterminated text previous h s hs hn
  refine ⟨hblock, ?_, ?_⟩
  · intro i hsi hi
    refine formatsOf_append_covered text _ _ multiLineCommentFormat i hi ?_ ?_
    · intro sp hsp
      rw [List.mem_singleton.mp hsp]
    · refine ⟨_, List.mem_singleton_self _, hsi, ?_⟩
      show i < s + (text.length - s)
      omega
  · intro next hnext
    refine ⟨?_, formatsOf_whole_line next _⟩
    simp only [highlightBlocks, hblock, highlightBlock_inside_no_end next hnext]

/-- C15 at the line `// see /* here`, whose first `/*` is at offset 7. -/
theorem highlightBlock_delimiter_any_context_witness :
    (0 : Int) ≠ 1 ∧
    FirstAtOrAfter (commentStartAt "// see /* here".toList) 0 7 ∧
    NoneAtOrAfter (commentEndAt "// see /* here".toList) 7 ∧
    highlightBlock "// see /* here".toList 0 =
      some (rulePass "// see /* here".toList ++
        [⟨7, "// see /* here".toList.length - 7, multiLineCommentFormat⟩], 1) :=
  ⟨by decide, indexOf_pair_some.mp (by decide), (indexOf_pair_none (by decide)).mp (by decide),
    (highlightBlock_delimiter_any_context.1 "// see /* here".toList 0 7 (by decide)
      (indexOf_pair_some.mp (by decide)) ((indexOf_pair_none (by decide)).mp (by decide))).1⟩

/-! ## Theme and syntax colours -/

/-- The pens of the gutter, for their part, differ between the themes. -/
theorem lineNumberPen_theme (caretLine : Bool) :
    lineNumberPen true caretLine ≠ lineNumberPen false caretLine := by
  cases caretLine <;> decide

theorem classify_returns (text : QString) (incoming : Bool) :
    ∃ r, classify text incoming = some r := by
  obtain ⟨r, hr⟩ := highlightBlock_returns text (stateOfFlag incoming)
  exact ⟨(r.1, decide (r.2 = 1)), by simp only [classify, hr]⟩

theorem freshExcept_mono {d1 d2 : List Nat} (hsub : ∀ j, j ∈ d1 → j ∈ d2) :
    ∀ (lines : List LineEntry) (i : Nat) (incoming : Bool),
      FreshExcept d1 i incoming lines → FreshExcept d2 i incoming lines := by
  intro lines
  induction lines with
  | nil => intro i incoming _; trivial
  | cons line rest ih =>
    intro i incoming h
    exact ⟨fun hi => h.1 (fun hmem => hi (hsub i hmem)), ih _ _ h.2⟩

/-- For a pending line the incoming flag it was once classified with is of no account. -/
theorem freshExcept_pending {d : List Nat} {i : Nat} (hi : i ∈ d) {x y : Bool}
    {lines : List LineEntry} (h : FreshExcept d i x lines) : FreshExcept d i y lines := by
  cases lines with
  | nil => trivial
  | cons line rest => exact ⟨fun hn => absurd hi hn, h.2⟩

/-- The pass of `recompute()` returns, keeps the texts, and leaves every line
fresh, none pending. -/
theorem recomputeFrom_fresh :
    ∀ (lines : List LineEntry) (i : Nat) (incoming : Bool) (dirty : List Nat),
      FreshExcept dirty i incoming lines →
      ∃ done, recomputeFrom i incoming dirty lines = some done ∧
        done.map (fun l => l.text) = lines.map (fun l => l.text) ∧
        FreshExcept [] i incoming done := by
  intro lines
  induction lines with
  | nil =>
    intro i incoming dirty _
    exact ⟨[], rfl, rfl, trivial⟩
  | cons line rest ih =>
    intro i incoming dirty h
    by_cases hi : i ∈ dirty
    · obtain ⟨r, hr⟩ := classify_returns line.text incoming
      obtain ⟨spans, outgoing⟩ := r
      have hrest : FreshExcept (if outgoing ≠ line.outgoing then (i + 1) :: dirty else dirty)
          (i + 1) outgoing rest := by
        by_cases hne : outgoing ≠ line.outgoing
        · rw [if_pos hne]
          exact freshExcept_pending (List.mem_cons_self _ _)
            (freshExcept_mono (fun j hj => List.mem_cons_of_mem _ hj) _ _ _ h.2)
        · rw [if_neg hne]
          have heq : outgoing = line.outgoing := by
            by_contra hc
            exact hne hc
          rw [heq]
          exact h.2
      obtain ⟨done, hdone, htext, hfresh⟩ := ih _ _ _ hrest
      refine ⟨⟨line.text, incoming, outgoing, spans⟩ :: done, ?_, ?_, ?_⟩
      · simp only [recomputeFrom, hi, if_true, hr, hdone]
      · simp only [List.map_cons, htext]
      · exact ⟨fun _ => ⟨rfl, hr⟩, hfresh⟩
    · obtain ⟨done, hdone, htext, hfresh⟩ := ih _ _ _ h.2
      refine ⟨line :: done, ?_, ?_, ?_⟩
      · simp only [recomputeFrom, hi, if_false, hdone]
      · simp only [List.map_cons, htext]
      · exact ⟨fun _ => h.1 hi, hfresh⟩

theorem freshExcept_nil_head {incoming : Bool} {lines : List LineEntry} {a : LineEntry}
    {i : Nat} (h : FreshExcept [] i incoming lines) (ha : lines[0]? = some a) :
    a.incoming = incoming := by
  cases lines with
  | nil => cases ha
  | cons line rest =>
    have : line = a := by simpa using ha
    subst this
    exact (h.1 (List.not_mem_nil _)).1

theorem freshExcept_nil_get :
    ∀ (lines : List LineEntry) (i : Nat) (incoming : Bool),
      FreshExcept [] i incoming lines →
      ∀ (k : Nat) (a : LineEntry), lines[k]? = some a →
        classify a.text a.incoming = some (a.spans, a.outgoing) ∧
        ∀ b, lines[k + 1]? = some b → b.incoming = a.outgoing := by
  intro lines
  induction lines with
  | nil =>
    intro i incoming _ k a ha
    cases ha
  | cons line rest ih =>
    intro i incoming h k a ha
    cases k with
    | zero =>
      have : line = a := by simpa using ha
      subst this
      refine ⟨(h.1 (List.not_mem_nil _)).2, ?_⟩
      intro b hb
      exact freshExcept_nil_head h.2 (by simpa using hb)
    | succ k =>
      obtain ⟨h1, h2⟩ := ih _ _ h.2 k a (by simpa using ha)
      exact ⟨h1, fun b hb => h2 b (by simpa using hb)⟩

/-- A state in which every line is pending is well-formed. -/
theorem wellFormed_of_all_dirty (c : Controller)
    (h : ∀ k, k < c.lines.length → k ∈ c.dirty) : WellFormed c := by
  have hgen : ∀ (lines : List LineEntry) (i : Nat) (incoming : Bool),
      (∀ k, k < lines.length → i + k ∈ c.dirty) → FreshExcept c.dirty i incoming lines := by
    intro lines
    induction lines with
    | nil => intro i incoming _; trivial
    | cons line rest ih =>
      intro i incoming hall
      refine ⟨fun hn => absurd (hall 0 (by simp)) hn, ih _ _ ?_⟩
      intro k hk
      have := hall (k + 1) (by simpa using hk)
      rwa [show i + 1 + k = i + (k + 1) by omega]
  exact hgen c.lines 0 false (fun k hk => by simpa using h k hk)

/-- Replacing the text of a line and marking it dirty keeps the state well-formed. -/
theorem wellFormed_edit (c : Controller) (i : Nat) (text : QString) (h : WellFormed c) :
    WellFormed (onLinesChanged [i] ⟨setLineText text i c.lines, c.dirty⟩) := by
  have hgen : ∀ (lines : List LineEntry) (j k : Nat) (incoming : Bool),
      FreshExcept c.dirty j incoming lines →
      FreshExcept ((j + k) :: c.dirty) j incoming (setLineText text k lines) := by
    intro lines
    induction lines with
    | nil =>
      intro j k incoming _
      cases k <;> exact trivial
    | cons line rest ih =>
      intro j k incoming hf
      cases k with
      | zero =>
        exact ⟨fun hn => absurd (List.mem_cons_self _ _) hn,
          freshExcept_mono (fun x hx => List.mem_cons_of_mem _ hx) _ _ _ hf.2⟩
      | succ k =>
        refine ⟨fun hn => hf.1 (fun hmem => hn (List.mem_cons_of_mem _ hmem)), ?_⟩
        have := ih (j + 1) k line.outgoing hf.2
        rwa [show j + 1 + k = j + (k + 1) by omega] at this
  have := hgen c.lines 0 i false h
  rw [Nat.zero_add] at this
  exact this

/-- C11. After `recompute()` of a well-formed controller state, and so after
the recomputation of a whole document, all of whose lines are pending: the
DirtySet is empty, the texts are the same, the incoming flag line 0 was
classified with is false, the incoming flag line `i + 1` was classified with is
the stored outgoing flag of line `i`, and the spans and the outgoing flag of
every line are those of its text under the Line Classifier. -/
theorem recompute_ledger (c : Controller) (h : WellFormed c) :
    ∃ c2, recompute c = some c2 ∧ c2.dirty = [] ∧ WellFormed c2 ∧
      c2.lines.map (fun l => l.text) = c.lines.map (fun l => l.text) ∧
      (∀ a, c2.lines[0]? = some a → a.incoming = false) ∧
      (∀ (i : Nat) (a b : LineEntry), c2.lines[i]? = some a → c2.lines[i + 1]? = some b →
        b.incoming = a.outgoing) ∧
      (∀ (i : Nat) (a : LineEntry), c2.lines[i]? = some a →
        classify a.text a.incoming = some (a.spans, a.outgoing)) := by
  obtain ⟨done, hdone, htext, hfresh⟩ := recomputeFrom_fresh c.lines 0 false c.dirty h
  refine ⟨⟨done, []⟩, ?_, rfl, hfresh, htext, ?_, ?_, ?_⟩
  · simp only [recompute, hdone]
  · intro a ha
    exact freshExcept_nil_head hfresh ha
  · intro i a b ha hb
    exact (freshExcept_nil_get done 0 false hfresh i a ha).2 b hb
  · intro i a ha
    exact (freshExcept_nil_get done 0 false hfresh i a ha).1

set_option maxRecDepth 100000 in
/-- C11 at scenario B handed to the controller with its three lines pending:
after `recompute()` the ledger reads false/true, true/true, true/false. -/
theorem recompute_ledger_witness :
    WellFormed (loadDocument ["/* start".toList, "still comment".toList,
      "end */ int z;".toList]) ∧
    (∃ c2, recompute (loadDocument ["/* start".toList, "still comment".toList,
        "end */ int z;".toList]) = some c2 ∧ c2.dirty = [] ∧
      c2.lines.map (fun l => (l.incoming, l.outgoing)) =
        [(false, true), (true, true), (true, false)]) := by
  have hw : WellFormed (loadDocument ["/* start".toList, "still comment".toList,
      "end */ int z;".toList]) :=
    wellFormed_of_all_dirty _ (by decide)
  obtain ⟨c2, hc2, hd, -⟩ := recompute_ledger _ hw
  refine ⟨hw, c2, hc2, hd, ?_⟩
  have hval : recompute (loadDocument ["/* start".toList, "still comment".toList,
      "end */ int z;".toList]) =
      some ⟨[⟨"/* start".toList, false, true, [⟨0, 8, multiLineCommentFormat⟩]⟩,
        ⟨"still comment".toList, true, true, [⟨0, 13, multiLineCommentFormat⟩]⟩,
        ⟨"end */ int z;".toList, true, false,
          [⟨7, 3, keywordFormat⟩, ⟨0, 6, multiLineCommentFormat⟩]⟩], []⟩ := by
    decide
  rw [hval] at hc2
  cases hc2
  rfl

/-! ## Idempotence of recomputation -/

theorem highlightBlock_state {text : QString} {previous : Int} {spans : List StyledSpan}
    {state : Int} (h : highlightBlock text previous = some (spans, state)) :
    state = 0 ∨ state = 1 := by
  have hflag : ∀ o : Bool, stateOfFlag o = 0 ∨ stateOfFlag o = 1 := by
    intro o
    cases o
    · exact Or.inl rfl
    · exact Or.inr rfl
  by_cases hp : previous = 1
  · subst hp
    obtain ⟨sp, o, -, hpass⟩ := commentPass_inside text
    rw [highlightBlock_of_commentPass hpass] at h
    cases h
    exact hflag o
  · obtain ⟨sp, o, -, hpass⟩ := commentPass_outside text previous hp
    rw [highlightBlock_of_commentPass hpass] at h
    cases h
    exact hflag o

/-- Only whether the previous block state is 1 matters to `highlightBlock`. -/
theorem highlightBlock_outside_eq (text : QString) (previous : Int) (h : previous ≠ 1) :
    highlightBlock text previous = highlightBlock text 0 := by
  simp only [highlightBlock, commentPass, ne_eq, h, not_false_eq_true, if_true]
  rfl

theorem highlightBlock_of_flag (text : QString) (previous : Int) (incoming : Bool)
    (h : previous = 1 ↔ incoming = true) :
    highlightBlock text previous = highlightBlock text (stateOfFlag incoming) := by
  cases incoming with
  | true =>
    rw [h.mpr rfl]
    rfl
  | false =>
    have hp : previous ≠ 1 := fun hc => by
      have := h.mp hc
      cases this
    rw [highlightBlock_outside_eq text previous hp]
    rfl

theorem recomputeFrom_returns :
    ∀ (lines : List LineEntry) (i : Nat) (incoming : Bool) (dirty : List Nat),
      ∃ done, recomputeFrom i incoming dirty lines = some done := by
  intro lines
  induction lines with
  | nil =>
    intro i incoming dirty
    exact ⟨[], rfl⟩
  | cons line rest ih =>
    intro i incoming dirty
    by_cases hi : i ∈ dirty
    · obtain ⟨r, hr⟩ := classify_returns line.text incoming
      obtain ⟨spans, outgoing⟩ := r
      obtain ⟨done, hdone⟩ := ih (i + 1) outgoing
        (if outgoing ≠ line.outgoing then (i + 1) :: dirty else dirty)
      exact ⟨⟨line.text, incoming, outgoing, spans⟩ :: done,
        by simp only [recomputeFrom, hi, if_true, hr, hdone]⟩
    · obtain ⟨done, hdone⟩ := ih (i + 1) line.outgoing dirty
      exact ⟨line :: done, by simp only [recomputeFrom, hi, if_false, hdone]⟩

/-- With an empty DirtySet the pass changes nothing. -/
theorem recomputeFrom_clean :
    ∀ (lines : List LineEntry) (i : Nat) (incoming : Bool),
      recomputeFrom i incoming [] lines = some lines := by
  intro lines
  induction lines with
  | nil =>
    intro i incoming
    rfl
  | cons line rest ih =>
    intro i incoming
    simp only [recomputeFrom, List.not_mem_nil, if_false, ih]

/-- When every line is pending the pass depends on the texts alone, not on the
ledger or on what else the DirtySet holds. -/
theorem recomputeFrom_all_dirty :
    ∀ (lines1 lines2 : List LineEntry) (i : Nat) (incoming : Bool) (d1 d2 : List Nat),
      lines1.map (fun l => l.text) = lines2.map (fun l => l.text) →
      (∀ k, k < lines1.length → i + k ∈ d1) → (∀ k, k < lines2.length → i + k ∈ d2) →
      recomputeFrom i incoming d1 lines1 = recomputeFrom i incoming d2 lines2 := by
  intro lines1
  induction lines1 with
  | nil =>
    intro lines2 i incoming d1 d2 htext _ _
    cases lines2 with
    | nil => rfl
    | cons l2 r2 => simp at htext
  | cons l1 r1 ih =>
    intro lines2 i incoming d1 d2 htext h1 h2
    cases lines2 with
    | nil => simp at htext
    | cons l2 r2 =>
      simp only [List.map_cons, List.cons.injEq] at htext
      obtain ⟨ht, hrest⟩ := htext
      have hi1 : i ∈ d1 := by simpa using h1 0 (by simp)
      have hi2 : i ∈ d2 := by simpa using h2 0 (by simp)
      simp only [recomputeFrom, hi1, hi2, if_true, ht]
      cases hc : classify l2.text incoming with
      | none => rfl
      | some r =>
        obtain ⟨spans, outgoing⟩ := r
        simp only
        have hall1 : ∀ k, k < r1.length →
            i + 1 + k ∈ (if outgoing ≠ l1.outgoing then (i + 1) :: d1 else d1) := by
          intro k hk
          have := h1 (k + 1) (by simpa using hk)
          rw [show i + (k + 1) = i + 1 + k by omega] at this
          split
          · exact List.mem_cons_of_mem _ this
          · exact this
        have hall2 : ∀ k, k < r2.length →
            i + 1 + k ∈ (if outgoing ≠ l2.outgoing then (i + 1) :: d2 else d2) := by
          intro k hk
          have := h2 (k + 1) (by simpa using hk)
          rw [show i + (k + 1) = i + 1 + k by omega] at this
          split
          · exact List.mem_cons_of_mem _ this
          · exact this
        rw [ih r2 (i + 1) outgoing _ _ hrest hall1 hall2]

/-- C12. Running `recompute()` a second time, with no edit in between, returns
the state the first run returned: for every line the same spans and the same
flags, and the DirtySet is empty both times.  And the recomputation of a whole
document depends on the texts of its lines alone: two controller states with
the same texts and every line pending are recomputed to the same state,
whatever their ledgers held.  For `highlightBlock` reads of the state carried
between blocks only whether the previous block state is 1: it is the Line
Classifier of the text and that flag. -/
theorem recompute_idempotent :
    (∀ c : Controller, ∃ c1, recompute c = some c1 ∧ c1.dirty = [] ∧
      recompute c1 = some c1) ∧
    (∀ c d : Controller, c.lines.map (fun l => l.text) = d.lines.map (fun l => l.text) →
      (∀ k, k < c.lines.length → k ∈ c.dirty) → (∀ k, k < d.lines.length → k ∈ d.dirty) →
      recompute c = recompute d) ∧
    (∀ (text : QString) (previous : Int) (incoming : Bool),
      (previous = 1 ↔ incoming = true) →
      ∃ spans outgoing, classify text incoming = some (spans, outgoing) ∧
        highlightBlock text previous = some (spans, stateOfFlag outgoing)) := by
  refine ⟨?_, ?_, ?_⟩
  · intro c
    obtain ⟨done, hdone⟩ := recomputeFrom_returns c.lines 0 false c.dirty
    refine ⟨⟨done, []⟩, by simp only [recompute, hdone], rfl, ?_⟩
    simp only [recompute, recomputeFrom_clean]
  · intro c d htext hc hd
    have := recomputeFrom_all_dirty c.lines d.lines 0 false c.dirty d.dirty htext
      (fun k hk => by simpa using hc k hk) (fun k hk => by simpa using hd k hk)
    simp only [recompute, this]
  · intro text previous incoming hflag
    obtain ⟨r, hr⟩ := highlightBlock_returns text previous
    obtain ⟨spans, state⟩ := r
    have hr2 : highlightBlock text (stateOfFlag incoming) = some (spans, state) := by
      rw [← highlightBlock_of_flag text previous incoming hflag]
      exact hr
    refine ⟨spans, decide (state = 1), by simp only [classify, hr2], ?_⟩
    rw [hr]
    rcases highlightBlock_state hr with h0 | h1
    · subst h0
      rfl
    · subst h1
      rfl

set_option maxRecDepth 100000 in
/-- Scenario C on the controller: scenario B recomputed, line 1 replaced by
`still comment */ int mid;` and marked dirty. `recompute()` classifies line 1,
whose outgoing flag turns false, and so line 2 as well, now with incoming flag
false; line 0 is left as it was. -/
theorem recompute_scenario_C :
    recompute (onLinesChanged [1]
      ⟨setLineText "still comment */ int mid;".toList 1
        [⟨"/* start".toList, false, true, [⟨0, 8, multiLineCommentFormat⟩]⟩,
          ⟨"still comment".toList, true, true, [⟨0, 13, multiLineCommentFormat⟩]⟩,
          ⟨"end */ int z;".toList, true, false,
            [⟨7, 3, keywordFormat⟩, ⟨0, 6, multiLineCommentFormat⟩]⟩], []⟩) =
      some ⟨[⟨"/* start".toList, false, true, [⟨0, 8, multiLineCommentFormat⟩]⟩,
        ⟨"still comment */ int mid;".toList, true, false,
          [⟨17, 3, keywordFormat⟩, ⟨0, 16, multiLineCommentFormat⟩]⟩,
        ⟨"end */ int z;".toList, false, false, [⟨7, 3, keywordFormat⟩]⟩], []⟩ := by
  decide

/-! ## The controller and the top-down pass agree on a whole document -/

theorem recomputeFrom_highlightBlocks :
    ∀ (lines : List LineEntry) (i : Nat) (incoming : Bool) (dirty : List Nat) (previous : Int),
      (∀ k, k < lines.length → i + k ∈ dirty) → (previous = 1 ↔ incoming = true) →
      ∃ done results, recomputeFrom i incoming dirty lines = some done ∧
        highlightBlocks previous (lines.map (fun l => l.text)) = some results ∧
        done.map (fun l => (l.spans, stateOfFlag l.outgoing)) = results := by
  intro lines
  induction lines with
  | nil =>
    intro i incoming dirty previous _ _
    exact ⟨[], [], rfl, rfl, rfl⟩
  | cons line rest ih =>
    intro i incoming dirty previous hall hprev
    have hi : i ∈ dirty := by simpa using hall 0 (by simp)
    obtain ⟨r, hr⟩ := highlightBlock_returns line.text previous
    obtain ⟨spans, state⟩ := r
    have hstate := highlightBlock_state hr
    have hr2 : highlightBlock line.text (stateOfFlag incoming) = some (spans, state) := by
      rw [← highlightBlock_of_flag line.text previous incoming hprev]
      exact hr
    have hclass : classify line.text incoming = some (spans, decide (state = 1)) := by
      simp only [classify, hr2]
    have hrest : ∀ k, k < rest.length → i + 1 + k ∈
        (if decide (state = 1) ≠ line.outgoing then (i + 1) :: dirty else dirty) := by
      intro k hk
      have := hall (k + 1) (by simpa using hk)
      rw [show i + (k + 1) = i + 1 + k by omega] at this
      split
      · exact List.mem_cons_of_mem _ this
      · exact this
    obtain ⟨done, results, hdone, hres, hmap⟩ :=
      ih (i + 1) (decide (state = 1)) _ state hrest (by simp)
    refine ⟨⟨line.text, incoming, decide (state = 1), spans⟩ :: done,
      (spans, state) :: results, ?_, ?_, ?_⟩
    · simp only [recomputeFrom, hi, if_true, hclass, hdone]
    · simp only [List.map_cons, highlightBlocks, hr, hres]
    · simp only [List.map_cons, hmap, List.cons.injEq, Prod.mk.injEq, true_and, and_true]
      rcases hstate with h0 | h1
      · subst h0
        rfl
      · subst h1
        rfl

/-- The recomputation of a newly loaded document publishes what highlighting
its blocks top-down gives: for every line the same spans and the same state. -/
theorem recompute_loadDocument (texts : List QString) :
    ∃ c1 results, recompute (loadDocument texts) = some c1 ∧
      highlightDocument texts = some results ∧
      c1.lines.map (fun l => (l.spans, stateOfFlag l.outgoing)) = results := by
  obtain ⟨done, results, hdone, hres, hmap⟩ :=
    recomputeFrom_highlightBlocks (loadDocument texts).lines 0 false
      (loadDocument texts).dirty (-1)
      (fun k hk => by
        simp only [loadDocument, List.length_map] at hk
        simp only [loadDocument, Nat.zero_add, List.mem_range]
        exact hk)
      (by decide)
  refine ⟨⟨done, []⟩, results, by simp only [recompute, hdone], ?_, hmap⟩
  have htexts : (loadDocument texts).lines.map (fun l => l.text) = texts := by
    simp only [loadDocument, List.map_map]
    exact List.map_id' texts
  rw [htexts] at hres
  exact hres

end Nova
